import Mathlib

set_option linter.unusedSectionVars false

/-!
# Verification of the ranking core of `agent` (ranker.py / main.py)

Shallow embedding of the scoring/ranking pipeline of `src/agent/tools/ranker.py`
and the JSON-handling helpers of `src/agent/main.py`, together with proofs of the
behavioural claims about them.

Numeric values are modelled by an arbitrary `LinearOrderedField K` (the code
computes with IEEE doubles; the claims under verification are order- and
structure-level, not rounding-level).  The square root used by the sector
z-score (`pandas.Series.std`) is passed in as an explicit function `sqrtK`;
instantiating `K := ℝ` and `sqrtK := Real.sqrt` gives the intended real-number
model, while `K := ℚ` with any placeholder is used to evaluate witnesses.
Missing values (pandas `NaN`) are modelled by `Option K` with `none` for `NaN`.
-/

variable {K : Type} [LinearOrderedField K]

/-! ## Series statistics (pandas helpers used by `_dirnorm` and the z-score) -/

/-- Minimum of a nonempty list, as computed by folding `min` (models `np.nanmin`
on a NaN-free array given as head and tail). -/
def listMin (h : K) (t : List K) : K := t.foldl min h

/-- Maximum of a nonempty list, folding `max` (models `np.nanmax`). -/
def listMax (h : K) (t : List K) : K := t.foldl max h

/-- `pandas.Series.median` on the non-missing values: sort ascending, take the
middle element, or the average of the two middle elements for even length;
`none` when there are no values (median of an all-NaN series is NaN). -/
def pdMedian (l : List (Option K)) : Option K :=
  match l.filterMap id with
  | [] => none
  | h :: t =>
    let s := (h :: t).insertionSort (· ≤ ·)
    let n := (h :: t).length
    if n % 2 = 1 then some (s.getD (n / 2) 0)
    else some ((s.getD (n / 2 - 1) 0 + s.getD (n / 2) 0) / 2)

/-- `_dirnorm(series, direction)` from `ranker.py`:
coerce to numeric (already done by the `Option K` representation), fill missing
entries with the median, negate when `direction == "negative"`, then min-max
scale to `[0,1]`; if the series is all-missing or the scaled range is zero,
return the neutral constant `0.5` for every row. -/
def dirnorm (series : List (Option K)) (direction : String) : List K :=
  match pdMedian series with
  | none => List.replicate series.length (1 / 2)
  | some med =>
    let s := series.map (fun o => o.getD med)
    let x := if direction = "negative" then s.map (fun v => -v) else s
    match x with
    | [] => []
    | h :: t =>
      let lo := listMin h t
      let hi := listMax h t
      if hi = lo then List.replicate series.length (1 / 2)
      else x.map (fun v => (v - lo) / (hi - lo))

/-! ### Facts about `listMin`, `listMax`, `pdMedian`, `dirnorm` -/

theorem listMin_le_head (h : K) (t : List K) : listMin h t ≤ h := by
  unfold listMin
  induction t generalizing h with
  | nil => exact le_refl h
  | cons a t ih => exact le_trans (ih (min h a)) (min_le_left h a)

theorem listMin_le_mem (h : K) (t : List K) : ∀ x ∈ t, listMin h t ≤ x := by
  unfold listMin
  induction t generalizing h with
  | nil => intro x hx; cases hx
  | cons a t ih =>
    intro x hx
    rcases List.mem_cons.mp hx with rfl | hx
    · exact le_trans (listMin_le_head (min h x) t) (min_le_right h x)
    · exact ih (min h a) x hx

theorem head_le_listMax (h : K) (t : List K) : h ≤ listMax h t := by
  unfold listMax
  induction t generalizing h with
  | nil => exact le_refl h
  | cons a t ih => exact le_trans (le_max_left h a) (ih (max h a))

theorem mem_le_listMax (h : K) (t : List K) : ∀ x ∈ t, x ≤ listMax h t := by
  unfold listMax
  induction t generalizing h with
  | nil => intro x hx; cases hx
  | cons a t ih =>
    intro x hx
    rcases List.mem_cons.mp hx with rfl | hx
    · exact le_trans (le_max_right h x) (head_le_listMax (max h x) t)
    · exact ih (max h a) x hx

theorem listMin_le_listMax (h : K) (t : List K) : listMin h t ≤ listMax h t :=
  le_trans (listMin_le_head h t) (head_le_listMax h t)

/-- Every entry of `dirnorm` lies in `[0,1]`. -/
theorem dirnorm_mem_unitInterval (series : List (Option K)) (direction : String) :
    ∀ y ∈ dirnorm series direction, 0 ≤ y ∧ y ≤ 1 := by
  unfold dirnorm
  cases hmed : pdMedian series with
  | none =>
    intro y hy
    rcases List.eq_of_mem_replicate hy with rfl
    constructor <;> norm_num
  | some med =>
    intro y hy
    simp only at hy
    set s := series.map (fun o => o.getD med) with hs
    set x := if direction = "negative" then s.map (fun v => -v) else s with hx
    match hxl : x with
    | [] => simp at hy
    | h :: t =>
      simp only at hy
      by_cases hrange : listMax h t = listMin h t
      · rw [if_pos hrange] at hy
        rcases List.eq_of_mem_replicate hy with rfl
        constructor <;> norm_num
      · rw [if_neg hrange] at hy
        rcases List.mem_map.mp hy with ⟨v, hv, rfl⟩
        have hlo : listMin h t ≤ v := by
          rcases List.mem_cons.mp hv with h1 | h1
          · rw [h1]; exact listMin_le_head h t
          · exact listMin_le_mem h t v h1
        have hhi : v ≤ listMax h t := by
          rcases List.mem_cons.mp hv with h1 | h1
          · rw [h1]; exact head_le_listMax h t
          · exact mem_le_listMax h t v h1
        have hlt : listMin h t < listMax h t :=
          lt_of_le_of_ne (listMin_le_listMax h t) (fun e => hrange e.symm)
        have hpos : (0 : K) < listMax h t - listMin h t := by linarith
        constructor
        · exact div_nonneg (by linarith) (le_of_lt hpos)
        · rw [div_le_one hpos]; linarith

/-- `dirnorm` preserves the length (same index/order as its input). -/
theorem dirnorm_length (series : List (Option K)) (direction : String) :
    (dirnorm series direction).length = series.length := by
  unfold dirnorm
  cases hmed : pdMedian series with
  | none => simp
  | some med =>
    simp only
    set s := series.map (fun o => o.getD med) with hs
    set x := if direction = "negative" then s.map (fun v => -v) else s with hx
    have hxlen : x.length = series.length := by
      rw [hx]; split <;> simp [hs]
    match hxl : x with
    | [] => simpa using hxlen
    | h :: t =>
      simp only
      split
      · simp
      · simpa using hxlen

/-! ## Rank assignment

`work["score_total"].rank(ascending=False, method="min").astype(int)`:
sort the scores descending; the rank of a value is one plus the position of its
first occurrence in the sorted order (minimum / "competition" rank). -/

/-- Pandas min-rank over descending scores, computed positionally from the
descending sort as pandas does. -/
def rankMinDesc (scores : List K) : List ℕ :=
  let sorted := scores.insertionSort (· ≥ ·)
  scores.map (fun v => sorted.findIdx (fun w => decide (w = v)) + 1)

theorem geK_isTotal : IsTotal K (· ≥ ·) := ⟨fun a b => le_total b a⟩

theorem geK_isTrans : IsTrans K (· ≥ ·) := ⟨fun _ _ _ h1 h2 => le_trans h2 h1⟩

/-- In a list sorted descending, the index of the first occurrence of a member
`v` equals the number of entries strictly greater than `v`. -/
theorem findIdx_sorted_ge (l : List K) (hs : l.Sorted (· ≥ ·)) (v : K) (hv : v ∈ l) :
    l.findIdx (fun w => decide (w = v)) = l.countP (fun w => decide (v < w)) := by
  induction l with
  | nil => cases hv
  | cons h t ih =>
    have hC := List.sorted_cons.mp hs
    by_cases hvh : h = v
    · have hp : (decide (h = v) : Bool) = true := decide_eq_true hvh
      rw [List.findIdx_cons, hp, cond_true, List.countP_cons]
      have h1 : (decide (v < h) : Bool) = false := by simp [hvh]
      have h2 : t.countP (fun w => decide (v < w)) = 0 := by
        rw [List.countP_eq_zero]
        intro a ha
        have : a ≤ h := hC.1 a ha
        simp only [decide_eq_true_eq]
        rw [← hvh]
        exact not_lt.mpr this
      simp [h1, h2]
    · have hvt : v ∈ t := by
        rcases List.mem_cons.mp hv with h1 | h1
        · exact absurd h1.symm hvh
        · exact h1
      have hp : (decide (h = v) : Bool) = false := decide_eq_false hvh
      have hlt : v < h := lt_of_le_of_ne (hC.1 v hvt) (fun e => hvh e.symm)
      rw [List.findIdx_cons, hp, cond_false, List.countP_cons]
      have h1 : (decide (v < h) : Bool) = true := decide_eq_true hlt
      rw [ih hC.2 hvt, h1]
      simp

/-- Closed form: the min-rank of each row equals
(number of rows with strictly greater score) + 1. -/
theorem rankMinDesc_eq_countGT (scores : List K) :
    rankMinDesc scores =
      scores.map (fun v => scores.countP (fun w => decide (v < w)) + 1) := by
  unfold rankMinDesc
  apply List.map_congr_left
  intro v hv
  have hsorted : (scores.insertionSort (· ≥ ·)).Sorted (· ≥ ·) :=
    @List.sorted_insertionSort K (· ≥ ·) _ geK_isTotal geK_isTrans scores
  have hmem : v ∈ scores.insertionSort (· ≥ ·) := (List.mem_insertionSort _).mpr hv
  rw [findIdx_sorted_ge _ hsorted v hmem]
  congr 1
  exact (List.perm_insertionSort (· ≥ ·) scores).countP_eq _

/-- Strict monotonicity of "count of strictly greater entries". -/
theorem countP_strict_mono {p q : K → Bool} (l : List K)
    (himp : ∀ x ∈ l, p x = true → q x = true) {y : K} (hy : y ∈ l)
    (hpy : p y = false) (hqy : q y = true) : l.countP p < l.countP q := by
  induction l with
  | nil => cases hy
  | cons h t ih =>
    rw [List.countP_cons, List.countP_cons]
    rcases List.mem_cons.mp hy with h1 | h1
    · subst h1
      rw [hpy, hqy]
      have : t.countP p ≤ t.countP q :=
        List.countP_mono_left (fun a ha => himp a (List.mem_cons_of_mem _ ha))
      simp
      omega
    · have hmono : t.countP p < t.countP q :=
        ih (fun a ha => himp a (List.mem_cons_of_mem _ ha)) h1
      by_cases hph : p h = true
      · rw [hph, himp h (List.mem_cons_self h t) hph]
        simp only [if_pos rfl]
        omega
      · rw [Bool.not_eq_true] at hph
        rw [hph]
        simp only [if_neg Bool.false_ne_true]
        cases hqh : q h <;> simp <;> omega

/-- Strictly greater score means strictly smaller (better) min-rank. -/
theorem countGT_anti (scores : List K) {a b : K} (hb : b ∈ scores) (hab : a < b) :
    scores.countP (fun w => decide (b < w)) < scores.countP (fun w => decide (a < w)) := by
  have himp : ∀ x ∈ scores,
      (fun w => decide (b < w)) x = true → (fun w => decide (a < w)) x = true := by
    intro x _ hx
    simp only [decide_eq_true_eq] at hx ⊢
    exact lt_trans hab hx
  exact countP_strict_mono scores himp hb (decide_eq_false (lt_irrefl b))
    (decide_eq_true hab)

/-- Two rows of the same table have equal min-rank iff they have equal score. -/
theorem rank_eq_iff_score_eq (scores : List K) {a b : K}
    (ha : a ∈ scores) (hb : b ∈ scores) :
    scores.countP (fun w => decide (a < w)) = scores.countP (fun w => decide (b < w)) ↔
      a = b := by
  constructor
  · intro h
    rcases lt_trichotomy a b with hlt | heq | hgt
    · exact absurd h.symm (Nat.ne_of_lt (countGT_anti scores hb hlt))
    · exact heq
    · exact absurd h (Nat.ne_of_lt (countGT_anti scores ha hgt))
  · intro h; rw [h]

/-! ## Tables (pandas DataFrames)

A table is an ordered association list of named columns.  Cells are strings,
numbers, integers (the `rank` column after `.astype(int)`), or missing (`NaN`).
`read_csv` yields unique column names, so column access uses first-match
semantics, matching pandas `work[col]` access, and `work[col] = ...` replaces
the first matching column in place or appends a new one. -/

/-- One cell of a DataFrame. -/
inductive Cell (K : Type) where
  | str : String → Cell K
  | num : K → Cell K
  | int : ℤ → Cell K
  | na : Cell K
deriving DecidableEq

/-- A DataFrame: columns in order, each with its name and cell list. -/
abbrev Table (K : Type) : Type := List (String × List (Cell K))

/-- Column names, in order. -/
def Table.colNames (t : Table K) : List String := t.map (·.1)

/-- Does the table have a column of this name (`col in df.columns`)? -/
def Table.hasCol (t : Table K) (c : String) : Bool := t.any (·.1 = c)

/-- Column access `df[c]` (first matching column; `[]` when absent). -/
def Table.get (t : Table K) (c : String) : List (Cell K) :=
  ((t.find? (·.1 = c)).map (·.2)).getD []

/-- Column assignment `df[c] = vs`: replace the (first) column of that name in
place when it exists, else append a new column at the end (pandas semantics). -/
def Table.set : Table K → String → List (Cell K) → Table K
  | [], c, vs => [(c, vs)]
  | p :: t, c, vs => if p.1 = c then (c, vs) :: t else p :: Table.set t c vs

/-- Number of rows (length of the first column; `0` for a column-less frame). -/
def Table.nRows (t : Table K) : ℕ :=
  match t with
  | [] => 0
  | p :: _ => p.2.length

/-- Well-formed frame: every column has the common row count. -/
def Table.wf (t : Table K) : Prop :=
  ∀ p ∈ t, (p : String × List (Cell K)).2.length = t.nRows

instance tableWfDecidable (t : Table K) : Decidable t.wf := by
  unfold Table.wf
  infer_instance

/-- `df.head(n)`: first `n` rows of every column. -/
def Table.head (t : Table K) (n : ℕ) : Table K :=
  t.map (fun p => (p.1, p.2.take n))

/-- Reindex all columns by a row permutation (the row reordering performed by
`sort_values`): row `i` of the result is row `perm[i]` of the input. -/
def permuteRows (perm : List ℕ) (t : Table K) : Table K :=
  t.map (fun p => (p.1, perm.map (fun i => p.2.getD i Cell.na)))

/-- Column projection/reordering `df[front + rest]`: the named front columns in
the given order, then all remaining columns in their current order. -/
def reorderCols (front : List String) (t : Table K) : Table K :=
  front.map (fun c => (c, t.get c)) ++ t.filter (fun p => ¬ front.contains p.1)

/-- `pd.to_numeric(series, errors="coerce")` on a cell: numbers pass through,
integers widen, everything else becomes missing. -/
def cellToNum (c : Cell K) : Option K :=
  match c with
  | Cell.num v => some v
  | Cell.int z => some (z : K)
  | _ => none

/-! ### Table lemmas -/

theorem Table.get_cons_self {p : String × List (Cell K)} {t : Table K} {c : String}
    (h : p.1 = c) : Table.get (p :: t) c = p.2 := by
  unfold Table.get
  rw [List.find?_cons_of_pos _ (by simpa using h)]
  rfl

theorem Table.get_cons_ne {p : String × List (Cell K)} {t : Table K} {c : String}
    (h : ¬ p.1 = c) : Table.get (p :: t) c = Table.get t c := by
  unfold Table.get
  rw [List.find?_cons_of_neg _ (by simpa using h)]

theorem Table.get_set_self (t : Table K) (c : String) (vs : List (Cell K)) :
    (t.set c vs).get c = vs := by
  induction t with
  | nil => simp [Table.set, Table.get]
  | cons p t ih =>
    unfold Table.set
    by_cases hp : p.1 = c
    · rw [if_pos hp, Table.get_cons_self rfl]
    · rw [if_neg hp, Table.get_cons_ne hp]
      exact ih

theorem Table.get_set_ne (t : Table K) {c c' : String} (h : c' ≠ c)
    (vs : List (Cell K)) : (t.set c vs).get c' = t.get c' := by
  induction t with
  | nil =>
    simp only [Table.set]
    exact Table.get_cons_ne (fun e => h e.symm)
  | cons p t ih =>
    unfold Table.set
    by_cases hp : p.1 = c
    · rw [if_pos hp]
      rw [Table.get_cons_ne (fun e => h e.symm), Table.get_cons_ne (by rw [hp]; exact fun e => h e.symm)]
    · rw [if_neg hp]
      by_cases hp' : p.1 = c'
      · rw [Table.get_cons_self hp', Table.get_cons_self hp']
      · rw [Table.get_cons_ne hp', Table.get_cons_ne hp']
        exact ih

theorem Table.hasCol_set_self (t : Table K) (c : String) (vs : List (Cell K)) :
    (t.set c vs).hasCol c = true := by
  induction t with
  | nil => simp [Table.set, Table.hasCol]
  | cons p t ih =>
    unfold Table.set
    by_cases hp : p.1 = c
    · rw [if_pos hp]
      simp [Table.hasCol]
    · rw [if_neg hp]
      unfold Table.hasCol at ih ⊢
      rw [List.any_cons, ih, Bool.or_true]

theorem Table.hasCol_set_of (t : Table K) {c' : String} (c : String)
    (vs : List (Cell K)) (h : t.hasCol c' = true) : (t.set c vs).hasCol c' = true := by
  simp only [Table.hasCol] at h ⊢
  induction t with
  | nil => simp at h
  | cons p t ih =>
    rw [List.any_cons] at h
    unfold Table.set
    by_cases hp : p.1 = c
    · rw [if_pos hp, List.any_cons]
      rcases Bool.or_eq_true_iff.mp h with h1 | h1
      · have hcc : c = c' := by rw [← hp]; exact of_decide_eq_true h1
        simp [hcc]
      · rw [h1, Bool.or_true]
    · rw [if_neg hp, List.any_cons]
      rcases Bool.or_eq_true_iff.mp h with h1 | h1
      · rw [h1, Bool.true_or]
      · rw [ih h1, Bool.or_true]

theorem Table.set_ne_nil (t : Table K) (c : String) (vs : List (Cell K)) :
    t.set c vs ≠ [] := by
  cases t with
  | nil => simp [Table.set]
  | cons p t =>
    unfold Table.set
    by_cases hp : p.1 = c
    · rw [if_pos hp]; simp
    · rw [if_neg hp]; simp

theorem Table.nRows_set (t : Table K) (c : String) (vs : List (Cell K))
    (hne : t ≠ []) (hlen : vs.length = t.nRows) : (t.set c vs).nRows = t.nRows := by
  cases t with
  | nil => exact absurd rfl hne
  | cons p t =>
    unfold Table.set
    by_cases hp : p.1 = c
    · rw [if_pos hp]
      unfold Table.nRows at hlen ⊢
      exact hlen
    · rw [if_neg hp]
      rfl

theorem Table.mem_set {t : Table K} {c : String} {vs : List (Cell K)}
    {p : String × List (Cell K)} (hp : p ∈ t.set c vs) : p = (c, vs) ∨ p ∈ t := by
  induction t with
  | nil =>
    simp only [Table.set] at hp
    exact Or.inl (List.mem_singleton.mp hp)
  | cons q t ih =>
    unfold Table.set at hp
    by_cases hq : q.1 = c
    · rw [if_pos hq] at hp
      rcases List.mem_cons.mp hp with h1 | h1
      · exact Or.inl h1
      · exact Or.inr (List.mem_cons_of_mem q h1)
    · rw [if_neg hq] at hp
      rcases List.mem_cons.mp hp with h1 | h1
      · exact Or.inr (h1 ▸ List.mem_cons_self q t)
      · rcases ih h1 with h2 | h2
        · exact Or.inl h2
        · exact Or.inr (List.mem_cons_of_mem q h2)

theorem Table.wf_set (t : Table K) (c : String) (vs : List (Cell K))
    (hwf : t.wf) (hlen : vs.length = t.nRows) : (t.set c vs).wf := by
  cases t with
  | nil =>
    intro p hp
    simp only [Table.set] at hp
    rcases List.mem_singleton.mp hp with rfl
    rfl
  | cons q t =>
    have hR : Table.nRows (Table.set (q :: t) c vs) = Table.nRows (q :: t) :=
      Table.nRows_set _ c vs (by simp) hlen
    intro p hp
    rw [hR]
    rcases Table.mem_set hp with h1 | h1
    · rw [h1]; exact hlen
    · exact hwf p h1

/-! ## Stable row sort (`sort_values(["rank", "score_total"])`)

With several sort keys pandas uses `np.lexsort`, a stable sort.  A stable sort
by the keys (rank ascending, score ascending) is exactly a sort by the strict
total order on (rank, score, original row index); `sortPerm` computes the
resulting row permutation. -/

/-- Lexicographic sort key comparison on row indices: rank ascending, then
score ascending, then original position (stability of `np.lexsort`). -/
def rowLe (ranks : List ℕ) (scores : List K) (i j : ℕ) : Prop :=
  ranks.getD i 0 < ranks.getD j 0 ∨
    (ranks.getD i 0 = ranks.getD j 0 ∧
      (scores.getD i 0 < scores.getD j 0 ∨
        (scores.getD i 0 = scores.getD j 0 ∧ i ≤ j)))

instance rowLeDecidable (ranks : List ℕ) (scores : List K) :
    DecidableRel (rowLe ranks scores) := by
  unfold rowLe
  intro i j
  infer_instance

theorem rowLe_isTotal (ranks : List ℕ) (scores : List K) :
    IsTotal ℕ (rowLe ranks scores) := by
  constructor
  intro i j
  unfold rowLe
  rcases lt_trichotomy (ranks.getD i 0) (ranks.getD j 0) with h | h | h
  · exact Or.inl (Or.inl h)
  · rcases lt_trichotomy (scores.getD i 0) (scores.getD j 0) with h2 | h2 | h2
    · exact Or.inl (Or.inr ⟨h, Or.inl h2⟩)
    · rcases Nat.le_total i j with h3 | h3
      · exact Or.inl (Or.inr ⟨h, Or.inr ⟨h2, h3⟩⟩)
      · exact Or.inr (Or.inr ⟨h.symm, Or.inr ⟨h2.symm, h3⟩⟩)
    · exact Or.inr (Or.inr ⟨h.symm, Or.inl h2⟩)
  · exact Or.inr (Or.inl h)

theorem rowLe_isTrans (ranks : List ℕ) (scores : List K) :
    IsTrans ℕ (rowLe ranks scores) := by
  constructor
  intro i j k hij hjk
  unfold rowLe at hij hjk ⊢
  rcases hij with h1 | ⟨h1, h1s⟩
  · rcases hjk with h2 | ⟨h2, _⟩
    · exact Or.inl (lt_trans h1 h2)
    · exact Or.inl (h2 ▸ h1)
  · rcases hjk with h2 | ⟨h2, h2s⟩
    · exact Or.inl (h1 ▸ h2)
    · refine Or.inr ⟨h1.trans h2, ?_⟩
      rcases h1s with hs1 | ⟨hs1, hi1⟩
      · rcases h2s with hs2 | ⟨hs2, _⟩
        · exact Or.inl (lt_trans hs1 hs2)
        · exact Or.inl (hs2 ▸ hs1)
      · rcases h2s with hs2 | ⟨hs2, hi2⟩
        · exact Or.inl (hs1 ▸ hs2)
        · exact Or.inr ⟨hs1.trans hs2, le_trans hi1 hi2⟩

/-- The row permutation computed by the stable sort: indices `0..n-1` ordered
by (rank asc, score asc, original index). -/
def sortPerm (ranks : List ℕ) (scores : List K) (n : ℕ) : List ℕ :=
  (List.range n).insertionSort (rowLe ranks scores)

theorem sortPerm_perm (ranks : List ℕ) (scores : List K) (n : ℕ) :
    List.Perm (sortPerm ranks scores n) (List.range n) :=
  List.perm_insertionSort _ _

theorem sortPerm_sorted (ranks : List ℕ) (scores : List K) (n : ℕ) :
    (sortPerm ranks scores n).Sorted (rowLe ranks scores) :=
  @List.sorted_insertionSort ℕ (rowLe ranks scores) (rowLeDecidable ranks scores)
    (rowLe_isTotal ranks scores) (rowLe_isTrans ranks scores) (List.range n)

theorem sortPerm_length (ranks : List ℕ) (scores : List K) (n : ℕ) :
    (sortPerm ranks scores n).length = n := by
  rw [(sortPerm_perm ranks scores n).length_eq, List.length_range]

theorem sortPerm_mem_lt (ranks : List ℕ) (scores : List K) (n : ℕ) :
    ∀ i ∈ sortPerm ranks scores n, i < n := by
  intro i hi
  have : i ∈ List.range n := (sortPerm_perm ranks scores n).mem_iff.mp hi
  exact List.mem_range.mp this

theorem sortPerm_nodup (ranks : List ℕ) (scores : List K) (n : ℕ) :
    (sortPerm ranks scores n).Nodup :=
  (sortPerm_perm ranks scores n).nodup_iff.mpr (List.nodup_range n)

/-! ### Reading columns through `permuteRows` and `reorderCols` -/

theorem get_permuteRows (perm : List ℕ) (t : Table K) {c : String}
    (h : t.hasCol c = true) :
    (permuteRows perm t).get c = perm.map (fun i => (t.get c).getD i Cell.na) := by
  unfold permuteRows
  induction t with
  | nil => simp [Table.hasCol] at h
  | cons p t ih =>
    by_cases hp : p.1 = c
    · rw [List.map_cons, Table.get_cons_self hp, Table.get_cons_self (by simpa using hp)]
    · rw [List.map_cons, Table.get_cons_ne hp, Table.get_cons_ne (by simpa using hp)]
      apply ih
      unfold Table.hasCol at h ⊢
      rw [List.any_cons] at h
      rcases Bool.or_eq_true_iff.mp h with h1 | h1
      · exact absurd (of_decide_eq_true h1) hp
      · exact h1

theorem get_mapFront (fr : List String) (t rest : Table K) {c : String}
    (h : c ∈ fr) :
    Table.get (fr.map (fun c2 => (c2, t.get c2)) ++ rest) c = t.get c := by
  induction fr with
  | nil => cases h
  | cons f fr ih =>
    rw [List.map_cons, List.cons_append]
    by_cases hf : f = c
    · rw [Table.get_cons_self hf, hf]
    · rcases List.mem_cons.mp h with h1 | h1
      · exact absurd h1.symm hf
      · rw [Table.get_cons_ne hf]
        exact ih h1

theorem get_reorderCols_of_mem (front : List String) (t : Table K) {c : String}
    (h : c ∈ front) : (reorderCols front t).get c = t.get c :=
  get_mapFront front t _ h

/-! ## JSON values and `json.loads`

A recursive-descent parser for the JSON subset exercised by the oracle
interface (objects, arrays, strings with common escapes, numbers with optional
fraction/exponent, booleans, null).  `json.loads` fails on any input that is
not a single JSON value surrounded only by whitespace.  Python builds objects
as dicts, so duplicate keys keep the first position and the last value. -/

/-- A parsed JSON value (a Python object produced by `json.loads`). -/
inductive JsonVal where
  | null : JsonVal
  | bool : Bool → JsonVal
  | num : ℚ → JsonVal
  | str : String → JsonVal
  | arr : List JsonVal → JsonVal
  | obj : List (String × JsonVal) → JsonVal

/-- Python-dict insertion: existing key keeps its position, value overwritten;
new key appended. -/
def upsert (l : List (String × JsonVal)) (k : String) (v : JsonVal) :
    List (String × JsonVal) :=
  if l.any (·.1 = k) then l.map (fun p => if p.1 = k then (k, v) else p)
  else l ++ [(k, v)]

def isWsChar (c : Char) : Bool := c = ' ' || c = '\t' || c = '\n' || c = '\r'

def skipWs : List Char → List Char
  | [] => []
  | c :: cs => if isWsChar c then skipWs cs else c :: cs

/-- Translation of a JSON string escape character. -/
def escChar (c : Char) : Option Char :=
  if c = '\"' then some '\"'
  else if c = '\\' then some '\\'
  else if c = '/' then some '/'
  else if c = 'n' then some '\n'
  else if c = 't' then some '\t'
  else if c = 'r' then some '\r'
  else if c = 'b' then some (Char.ofNat 8)
  else if c = 'f' then some (Char.ofNat 12)
  else none

/-- Parse the body of a string literal after the opening quote; returns the
content and the input after the closing quote.  (`\uXXXX` escapes are not
needed by any input considered here.) -/
def parseStrBody : List Char → Option (List Char × List Char)
  | [] => none
  | c :: cs =>
    if c = '\"' then some ([], cs)
    else if c = '\\' then
      match cs with
      | [] => none
      | e :: cs2 =>
        match escChar e with
        | none => none
        | some ch =>
          match parseStrBody cs2 with
          | none => none
          | some (s, rest) => some (ch :: s, rest)
    else
      match parseStrBody cs with
      | none => none
      | some (s, rest) => some (c :: s, rest)

def digitVal (c : Char) : Option ℕ :=
  if '0' ≤ c ∧ c ≤ '9' then some (c.toNat - '0'.toNat) else none

def takeDigits : List Char → (List ℕ × List Char)
  | [] => ([], [])
  | c :: cs =>
    match digitVal c with
    | some d =>
      let r := takeDigits cs
      (d :: r.1, r.2)
    | none => ([], c :: cs)

def digitsToNat (ds : List ℕ) : ℕ := ds.foldl (fun a d => a * 10 + d) 0

/-- Optional exponent suffix `e`/`E` with optional sign. -/
def applyExp (m : ℚ) : List Char → Option (ℚ × List Char)
  | [] => some (m, [])
  | c :: cs =>
    if c = 'e' || c = 'E' then
      let sgn : ℤ × List Char :=
        match cs with
        | '+' :: r => (1, r)
        | '-' :: r => (-1, r)
        | _ => (1, cs)
      match takeDigits sgn.2 with
      | ([], _) => none
      | (ds, rest) => some (m * (10 : ℚ) ^ (sgn.1 * (digitsToNat ds : ℤ)), rest)
    else some (m, c :: cs)

/-- Parse a JSON number. -/
def parseNumber (cs : List Char) : Option (ℚ × List Char) :=
  let signed : Bool × List Char :=
    match cs with
    | '-' :: r => (true, r)
    | _ => (false, cs)
  match takeDigits signed.2 with
  | ([], _) => none
  | (ds, cs2) =>
    let ipart : ℚ := (digitsToNat ds : ℚ)
    let withSign := fun (q : ℚ) => if signed.1 then -q else q
    match cs2 with
    | '.' :: r =>
      match takeDigits r with
      | ([], _) => none
      | (fs, cs3) =>
        match applyExp (ipart + (digitsToNat fs : ℚ) / (10 : ℚ) ^ fs.length) cs3 with
        | none => none
        | some (q, rest) => some (withSign q, rest)
    | _ =>
      match applyExp ipart cs2 with
      | none => none
      | some (q, rest) => some (withSign q, rest)

/-- Consume an expected literal continuation (e.g. `rue` after `t`). -/
def dropLit : List Char → List Char → Option (List Char)
  | [], cs => some cs
  | _ :: _, [] => none
  | l :: ls, c :: cs => if c = l then dropLit ls cs else none

mutual

/-- Parse one JSON value (fuelled recursive descent). -/
def parseValue : ℕ → List Char → Option (JsonVal × List Char)
  | 0, _ => none
  | Nat.succ fuel, cs =>
    match skipWs cs with
    | [] => none
    | c :: cs1 =>
      if c = '\x7b' then parseObjBody fuel cs1
      else if c = '[' then parseArrBody fuel cs1
      else if c = '\"' then
        match parseStrBody cs1 with
        | none => none
        | some (s, rest) => some (JsonVal.str (String.mk s), rest)
      else if c = 't' then
        match dropLit ['r', 'u', 'e'] cs1 with
        | none => none
        | some rest => some (JsonVal.bool true, rest)
      else if c = 'f' then
        match dropLit ['a', 'l', 's', 'e'] cs1 with
        | none => none
        | some rest => some (JsonVal.bool false, rest)
      else if c = 'n' then
        match dropLit ['u', 'l', 'l'] cs1 with
        | none => none
        | some rest => some (JsonVal.null, rest)
      else
        match parseNumber (c :: cs1) with
        | none => none
        | some (q, rest) => some (JsonVal.num q, rest)

/-- Parse an object body after the opening brace. -/
def parseObjBody : ℕ → List Char → Option (JsonVal × List Char)
  | 0, _ => none
  | Nat.succ fuel, cs =>
    match skipWs cs with
    | '\x7d' :: rest => some (JsonVal.obj [], rest)
    | other => parseMembers fuel other []

/-- Parse the members of an object, positioned at a key. -/
def parseMembers : ℕ → List Char → List (String × JsonVal) →
    Option (JsonVal × List Char)
  | 0, _, _ => none
  | Nat.succ fuel, cs, acc =>
    match skipWs cs with
    | '\"' :: cs1 =>
      match parseStrBody cs1 with
      | none => none
      | some (k, cs2) =>
        match skipWs cs2 with
        | ':' :: cs3 =>
          match parseValue fuel cs3 with
          | none => none
          | some (v, cs4) =>
            let acc2 := upsert acc (String.mk k) v
            match skipWs cs4 with
            | ',' :: cs5 => parseMembers fuel cs5 acc2
            | '\x7d' :: cs5 => some (JsonVal.obj acc2, cs5)
            | _ => none
        | _ => none
    | _ => none

/-- Parse an array body after the opening bracket. -/
def parseArrBody : ℕ → List Char → Option (JsonVal × List Char)
  | 0, _ => none
  | Nat.succ fuel, cs =>
    match skipWs cs with
    | ']' :: rest => some (JsonVal.arr [], rest)
    | other => parseElems fuel other []

/-- Parse the elements of an array, positioned at a value. -/
def parseElems : ℕ → List Char → List JsonVal → Option (JsonVal × List Char)
  | 0, _, _ => none
  | Nat.succ fuel, cs, acc =>
    match parseValue fuel cs with
    | none => none
    | some (v, cs2) =>
      match skipWs cs2 with
      | ',' :: cs3 => parseElems fuel cs3 (acc ++ [v])
      | ']' :: cs3 => some (JsonVal.arr (acc ++ [v]), cs3)
      | _ => none

end

/-- `json.loads`: parse one JSON value, requiring only whitespace around it;
any other input raises `JSONDecodeError`, modelled as `none`. -/
def json_loads (s : String) : Option JsonVal :=
  match parseValue (2 * s.length + 2) s.toList with
  | none => none
  | some (v, rest) => if skipWs rest = [] then some v else none

/-! ## `_safe_parse_json` (main.py) and the oracle-response sanitizer (ranker.py) -/

/-- Python `s.strip()`: drop leading and trailing whitespace. -/
def pyStrip (s : String) : String :=
  String.mk ((skipWs ((skipWs s.toList).reverse)).reverse)

/-- Index of the last occurrence of a character. -/
def lastIdxOf (cs : List Char) (c : Char) : Option ℕ :=
  match cs.reverse.findIdx? (· = c) with
  | none => none
  | some k => some (cs.length - 1 - k)

/-- `re.search(r"\x7b.*\x7d", s, re.S)`: with the greedy dot-all pattern the
match, when one exists, runs from the first brace-open to the last brace-close
of the whole string. -/
def extractBraces (s : String) : Option String :=
  let cs := s.toList
  match cs.findIdx? (· = '\x7b'), lastIdxOf cs '\x7d' with
  | some i, some j =>
    if i < j then some (String.mk ((cs.drop i).take (j - i + 1))) else none
  | _, _ => none

/-- `_safe_parse_json` from `main.py` (used for the intent classifier): strict
parse of the stripped input; on failure extract the brace-to-brace substring
and parse that — a failure of that second parse propagates as an exception
(`none`); with no brace match it returns the empty dict. -/
def safe_parse_json (s : String) : Option JsonVal :=
  match json_loads (pyStrip s) with
  | some v => some v
  | none =>
    match extractBraces s with
    | some sub => json_loads sub
    | none => some (JsonVal.obj [])

/-- Dict lookup `d.get(k)` on parsed JSON object fields. -/
def jlookup (fields : List (String × JsonVal)) (k : String) : Option JsonVal :=
  ((fields.find? (·.1 = k)).map (·.2))

/-- Python `float(x)` on a parsed JSON value (`none` = `TypeError`/`ValueError`,
caught by the sanitizer).  Numeric strings use the plain decimal/exponent
forms accepted by `parseNumber`. -/
def pyFloat? (v : JsonVal) : Option ℚ :=
  match v with
  | JsonVal.num q => some q
  | JsonVal.bool b => some (if b then 1 else 0)
  | JsonVal.str s =>
    let cs0 := (pyStrip s).toList
    let cs := match cs0 with
      | '+' :: r => r
      | _ => cs0
    match parseNumber cs with
    | some (q, []) => some q
    | _ => none
  | _ => none

/-- Python `str(x).lower()` on a parsed JSON value, for the direction field.
For non-string values Python renders `True`/`False`/`None`/numbers/containers,
none of which lower-case to `"positive"` or `"negative"`; the empty stand-in
for numbers and containers keeps that property. -/
def pyStrLower (v : JsonVal) : String :=
  match v with
  | JsonVal.str s => s.toLower
  | JsonVal.bool true => "true"
  | JsonVal.bool false => "false"
  | JsonVal.null => "none"
  | _ => ""

/-- Identifier columns never used for scoring. -/
def ID_COLS : List String := ["ticker", "name", "sector"]

def isNumericCell (c : Cell K) : Bool :=
  match c with
  | Cell.str _ => false
  | _ => true

/-- `pd.api.types.is_numeric_dtype`: a column is numeric when no cell is a
string (an all-missing column is a float column, hence numeric). -/
def isNumericColumn (vs : List (Cell K)) : Bool := vs.all isNumericCell

/-- The numeric columns the oracle may use. -/
def numericCols (df : Table K) : List String :=
  (df.filter (fun p => !(ID_COLS.contains p.1) && isNumericColumn p.2)).map (·.1)

/-- The sanitization loop of `prefs_from_text_llm` (ranker.py lines 72-81):
keep only object-valued entries for allowed numeric columns, coerce the
direction to lowercase `"positive"`/`"negative"` (default `"positive"`),
coerce the weight with `float(...)` (default/failure `0.0`) and clamp it to be
non-negative. -/
def sanitizePrefs (raw : List (String × JsonVal)) (ncols : List String) :
    List (String × K × String) :=
  raw.foldl (fun acc p =>
    match p.2 with
    | JsonVal.obj cfg =>
      if ncols.contains p.1 then
        let d0 := pyStrLower ((jlookup cfg "direction").getD (JsonVal.str "positive"))
        let d := if d0 = "positive" || d0 = "negative" then d0 else "positive"
        let w : K := ((pyFloat? ((jlookup cfg "weight").getD (JsonVal.num 0))).map
          (fun q => (q : K))).getD 0
        acc ++ [(p.1, max 0 w, d)]
      else acc
    | _ => acc) []

/-- The response-handling part of `prefs_from_text_llm(user_text, df)`: strict
`json.loads` of the oracle's message (a parse failure propagates as
`JSONDecodeError`), then `data.get("preferences", default empty dict)` when the
value is a dict (empty dict otherwise), then `.items()` (an `AttributeError`
when "preferences" maps to a non-dict), then sanitization against the numeric
columns of `df`. -/
def prefs_from_text (df : Table K) (content : String) :
    Except String (List (String × K × String)) :=
  match json_loads content with
  | none => Except.error "json.JSONDecodeError"
  | some data =>
    let prefsVal := match data with
      | JsonVal.obj fields => (jlookup fields "preferences").getD (JsonVal.obj [])
      | _ => JsonVal.obj []
    match prefsVal with
    | JsonVal.obj raw => Except.ok (sanitizePrefs raw (numericCols df))
    | _ => Except.error "AttributeError: items"

/-! ## Sector z-score and weight normalization -/

def listSum (l : List K) : K := l.foldl (· + ·) 0

/-- Mean of a group (`pandas` skips missing values; callers pass the
non-missing values). -/
def listMean (l : List K) : K := listSum l / l.length

/-- Population variance (`std(ddof=0)` squared). -/
def popVar (l : List K) : K :=
  listSum (l.map (fun x => (x - listMean l) * (x - listMean l))) / l.length

/-- `s.std(ddof=0) or 1.0`: the population standard deviation
`sqrtK (popVar l)`, replaced by `1.0` when it is exactly `0.0` (Python `or` on
a falsy float); the standard deviation is zero exactly when the variance is. -/
def stdOr1 (sqrtK : K → K) (l : List K) : K :=
  if popVar l = 0 then 1 else sqrtK (popVar l)

/-- `work.groupby("sector")[col].transform(lambda s: (s - s.mean()) / (s.std(ddof=0) or 1.0))`:
for each row, standardize its value against the rows sharing its sector key;
missing values and missing group keys give missing results. -/
def sectorZ (sqrtK : K → K) (keys : List (Cell K)) (vs : List (Option K)) :
    List (Option K) :=
  (keys.zip vs).map (fun p =>
    if p.1 = Cell.na then none
    else p.2.map (fun v =>
      let grp := (keys.zip vs).filterMap (fun q => if q.1 = p.1 then q.2 else none)
      (v - listMean grp) / stdOr1 sqrtK grp))

/-- `total_w = sum(weights) or 1.0; weight /= total_w` — divide every weight
by the sum of weights, with fallback divisor `1.0` when the sum is exactly
zero. -/
def normalizeWeights (prefs : List (String × K × String)) :
    List (String × K × String) :=
  let s := listSum (prefs.map (fun p => p.2.1))
  let total := if s = 0 then 1 else s
  prefs.map (fun p => (p.1, p.2.1 / total, p.2.2))

/-! ## The ranking pipeline `rank_from_csv` -/

/-- Name of the sector-standardized copy of a column. -/
def zName (c : String) : String := c ++ "__sector_z"

/-- Name of the per-attribute component column. -/
def scoreName (c : String) : String := "score__" ++ c

/-- An optional number as a cell. -/
def optCell (o : Option K) : Cell K :=
  match o with
  | some v => Cell.num v
  | none => Cell.na

/-- State of the sector-neutralization loop: the mutated frame, the z-columns
created so far, and the `mapped` dict. -/
structure ZState (K : Type) where
  work : Table K
  zcols : List (String × List (Option K))
  mapped : List (String × String)

/-- One iteration of the sector-neutralization loop (ranker.py lines 116-121). -/
def zStep (sqrtK : K → K) (st : ZState K) (pr : String × K × String) : ZState K :=
  if st.work.hasCol pr.1 then
    let zv := sectorZ sqrtK (st.work.get "sector") ((st.work.get pr.1).map cellToNum)
    { work := st.work.set (zName pr.1) (zv.map optCell),
      zcols := st.zcols ++ [(zName pr.1, zv)],
      mapped := st.mapped ++ [(pr.1, zName pr.1)] }
  else st

/-- The sector-neutralization pre-pass, run only when requested and a sector
column exists. -/
def runZ (sqrtK : K → K) (df : Table K) (prefs : List (String × K × String))
    (sector_neutral : Bool) : ZState K :=
  if sector_neutral && df.hasCol "sector" then
    prefs.foldl (zStep sqrtK) ⟨df, [], []⟩
  else ⟨df, [], []⟩

/-- `mapped.setdefault(col, col)`: the z-column when one was recorded, else the
raw column. -/
def mappedSrc (mapped : List (String × String)) (c : String) : String :=
  ((mapped.find? (·.1 = c)).map (·.2)).getD c

/-- State of the component loop: the mutated frame, `comp_cols`, and the
running total (`None` before the first computed component). -/
structure CState (K : Type) where
  work : Table K
  compCols : List String
  total : Option (List K)

/-- One iteration of the component loop (ranker.py lines 127-135): skip when
the source column is absent, otherwise normalize it, store the component
column and accumulate `comp * weight` into the total. -/
def cStep (mapped : List (String × String)) (st : CState K)
    (pr : String × K × String) : CState K :=
  let src := mappedSrc mapped pr.1
  if st.work.hasCol src then
    let comp := dirnorm ((st.work.get src).map cellToNum) pr.2.2
    let cname := scoreName pr.1
    { work := st.work.set cname (comp.map Cell.num),
      compCols := st.compCols ++ [cname],
      total := some (match st.total with
        | none => comp.map (fun v => v * pr.2.1)
        | some l => List.zipWith (· + ·) l (comp.map (fun v => v * pr.2.1))) }
  else st

/-- Result of the scoring core, exposing the intermediate state alongside the
final ordered frame. -/
structure RankResult (K : Type) where
  prefsNorm : List (String × K × String)
  zcols : List (String × List (Option K))
  mapped : List (String × String)
  compCols : List String
  preWork : Table K
  preScores : List K
  preRanks : List ℕ
  perm : List ℕ
  ordered : Table K

/-- Stage 1 of the scoring core: the sector-neutralization state after the
pre-pass, run on the weight-normalized spec. -/
def rwpZst (sqrtK : K → K) (df : Table K) (prefs0 : List (String × K × String))
    (sn : Bool) : ZState K :=
  runZ sqrtK df (normalizeWeights prefs0) sn

/-- Stage 2: the component-loop state. -/
def rwpCst (sqrtK : K → K) (df : Table K) (prefs0 : List (String × K × String))
    (sn : Bool) : CState K :=
  (normalizeWeights prefs0).foldl (cStep (rwpZst sqrtK df prefs0 sn).mapped)
    ⟨(rwpZst sqrtK df prefs0 sn).work, [], none⟩

/-- Stage 3: `work["score_total"] = total if total is not None else 0.0`. -/
def rwpScores (sqrtK : K → K) (df : Table K) (prefs0 : List (String × K × String))
    (sn : Bool) : List K :=
  match (rwpCst sqrtK df prefs0 sn).total with
  | none => List.replicate (Table.nRows (rwpCst sqrtK df prefs0 sn).work) 0
  | some l => l

/-- Stage 4: the min-rank column. -/
def rwpRanks (sqrtK : K → K) (df : Table K) (prefs0 : List (String × K × String))
    (sn : Bool) : List ℕ :=
  rankMinDesc (rwpScores sqrtK df prefs0 sn)

/-- Stage 5: the frame with `score_total` and `rank` columns assigned. -/
def rwpWork4 (sqrtK : K → K) (df : Table K) (prefs0 : List (String × K × String))
    (sn : Bool) : Table K :=
  ((rwpCst sqrtK df prefs0 sn).work.set "score_total"
      ((rwpScores sqrtK df prefs0 sn).map Cell.num)).set "rank"
    ((rwpRanks sqrtK df prefs0 sn).map (fun r => Cell.int (Int.ofNat r)))

/-- Stage 6: the front column list, filtered to existing columns. -/
def rwpFront (sqrtK : K → K) (df : Table K) (prefs0 : List (String × K × String))
    (sn : Bool) : List String :=
  (["rank", "ticker", "name"]
    ++ (if (rwpWork4 sqrtK df prefs0 sn).hasCol "sector" then ["sector"] else [])
    ++ ["score_total"] ++ (rwpCst sqrtK df prefs0 sn).compCols).filter
      (fun c => (rwpWork4 sqrtK df prefs0 sn).hasCol c)

/-- Stage 7: the row permutation of the stable sort. -/
def rwpPerm (sqrtK : K → K) (df : Table K) (prefs0 : List (String × K × String))
    (sn : Bool) : List ℕ :=
  sortPerm (rwpRanks sqrtK df prefs0 sn) (rwpScores sqrtK df prefs0 sn)
    (Table.nRows (rwpWork4 sqrtK df prefs0 sn))

/-- The deterministic scoring core of `rank_from_csv` (ranker.py lines
106-143), after the preference spec has been resolved: normalize the weights,
optionally sector-neutralize, compute the weighted components, the total
score, the min-rank, sort stably by (rank, score_total) ascending, and project
the columns front-first. -/
def rank_with_prefs (sqrtK : K → K) (df : Table K)
    (prefs0 : List (String × K × String)) (sector_neutral : Bool) : RankResult K :=
  ⟨normalizeWeights prefs0,
   (rwpZst sqrtK df prefs0 sector_neutral).zcols,
   (rwpZst sqrtK df prefs0 sector_neutral).mapped,
   (rwpCst sqrtK df prefs0 sector_neutral).compCols,
   rwpWork4 sqrtK df prefs0 sector_neutral,
   rwpScores sqrtK df prefs0 sector_neutral,
   rwpRanks sqrtK df prefs0 sector_neutral,
   rwpPerm sqrtK df prefs0 sector_neutral,
   reorderCols (rwpFront sqrtK df prefs0 sector_neutral)
     (permuteRows (rwpPerm sqrtK df prefs0 sector_neutral)
        (rwpWork4 sqrtK df prefs0 sector_neutral))⟩

/-- `rank_from_csv(csv_path, user_text, top_n, sector_neutral, out_path)`
given the already-loaded frame `df` and the oracle's response text `content`:
check the required columns, resolve and sanitize the preferences (a request
with zero usable preferences is aborted), run the scoring core, and return
`ordered.head(top_n)` together with the normalized spec (the full core result
is exposed as the third component). -/
def rank_from_csv (sqrtK : K → K) (df : Table K) (content : String)
    (top_n : ℕ) (sector_neutral : Bool) :
    Except String (Table K × List (String × K × String) × RankResult K) :=
  if df.hasCol "ticker" && df.hasCol "name" then
    match prefs_from_text df content with
    | Except.error e => Except.error e
    | Except.ok prefs =>
      match prefs with
      | [] => Except.error "LLM returned no usable preferences. Try a clearer request."
      | _ =>
        let res := rank_with_prefs sqrtK df prefs sector_neutral
        Except.ok (Table.head res.ordered top_n, res.prefsNorm, res)
  else Except.error "CSV must include ticker and name columns."

/-- The rows and columns written by `ordered.to_csv(out_path)` when an export
destination is supplied: the full ordered frame, written as-is with no
recomputation. -/
def exportedTable (res : RankResult K) : Table K := res.ordered

/-- The bounded view handed back to the caller: `ordered.head(top_n)`. -/
def rankView (res : RankResult K) (top_n : ℕ) : Table K :=
  Table.head res.ordered top_n

/-! ## Invariants of the pipeline folds -/

theorem foldl_inv {α β : Type} (P : α → Prop) (f : α → β → α) (l : List β) (s : α)
    (h : P s) (step : ∀ a b, b ∈ l → P a → P (f a b)) : P (l.foldl f s) := by
  induction l generalizing s with
  | nil => exact h
  | cons b t ih =>
    exact ih (f s b) (step s b (List.mem_cons_self b t) h)
      (fun a b2 hb2 => step a b2 (List.mem_cons_of_mem b hb2))

theorem Table.get_length_of_wf {t : Table K} (hwf : t.wf) {c : String}
    (h : t.hasCol c = true) : (t.get c).length = t.nRows := by
  unfold Table.hasCol at h
  rcases List.any_eq_true.mp h with ⟨p, hp, hpc⟩
  have hfind : ∃ q ∈ t, (fun x => decide (x.1 = c)) q = true := ⟨p, hp, hpc⟩
  rcases List.find?_isSome.mpr hfind |> Option.isSome_iff_exists.mp with ⟨q, hq⟩
  have hmem : q ∈ t := List.mem_of_find?_eq_some hq
  unfold Table.get
  rw [hq]
  exact hwf q hmem

theorem sectorZ_length (sqrtK : K → K) (keys : List (Cell K)) (vs : List (Option K)) :
    (sectorZ sqrtK keys vs).length = min keys.length vs.length := by
  unfold sectorZ
  rw [List.length_map, List.length_zip]

theorem getD_map_lt {α β : Type} (l : List α) (f : α → β) {i : ℕ} (h : i < l.length)
    (d : α) (d' : β) : (l.map f).getD i d' = f (l.getD i d) := by
  rw [List.getD_eq_getElem?_getD, List.getElem?_map,
    List.getElem?_eq_getElem h, List.getD_eq_getElem?_getD,
    List.getElem?_eq_getElem h]
  rfl

/-- Basic invariant carried through both loops: the frame is nonempty,
well-formed, with the original row count, and still has its sector column when
the original frame did. -/
def frameInv (df : Table K) (t : Table K) : Prop :=
  t ≠ [] ∧ t.wf ∧ t.nRows = df.nRows ∧
    (df.hasCol "sector" = true → t.hasCol "sector" = true)

theorem frameInv_set (df t : Table K) (c : String) (vs : List (Cell K))
    (h : frameInv df t) (hlen : vs.length = t.nRows) : frameInv df (t.set c vs) := by
  obtain ⟨hne, hwf, hn, hs⟩ := h
  refine ⟨Table.set_ne_nil t c vs, Table.wf_set t c vs hwf hlen, ?_, ?_⟩
  · rw [Table.nRows_set t c vs hne hlen]; exact hn
  · intro h2
    exact Table.hasCol_set_of t c vs (hs h2)

theorem zStep_inv (sqrtK : K → K) (df : Table K) (hsec : df.hasCol "sector" = true)
    (st : ZState K) (pr : String × K × String) (h : frameInv df st.work) :
    frameInv df (zStep sqrtK st pr).work := by
  unfold zStep
  by_cases hc : st.work.hasCol pr.1
  · rw [if_pos hc]
    apply frameInv_set df st.work _ _ h
    rw [List.length_map, sectorZ_length, List.length_map,
      Table.get_length_of_wf h.2.1 (h.2.2.2 hsec),
      Table.get_length_of_wf h.2.1 hc, min_self]
  · rw [if_neg hc]
    exact h

theorem runZ_inv (sqrtK : K → K) (df : Table K)
    (prefs : List (String × K × String)) (sn : Bool)
    (hdf : frameInv df df) : frameInv df (runZ sqrtK df prefs sn).work := by
  unfold runZ
  by_cases hg : sn && df.hasCol "sector"
  · rw [if_pos hg]
    have hsec : df.hasCol "sector" = true := by
      rcases Bool.and_eq_true_iff.mp hg with ⟨h1, h2⟩
      exact h2
    have : ∀ (st : ZState K), frameInv df st.work →
        frameInv df (prefs.foldl (zStep sqrtK) st).work := by
      intro st h0
      exact foldl_inv (fun st2 => frameInv df (ZState.work st2)) (zStep sqrtK) prefs st h0
        (fun a b _ hb => zStep_inv sqrtK df hsec a b hb)
    exact this ⟨df, [], []⟩ hdf
  · rw [if_neg hg]
    exact hdf

/-- Invariant of the component loop: frame invariant plus the running total
being absent or a length-`nRows` list. -/
def compInv (df : Table K) (st : CState K) : Prop :=
  frameInv df st.work ∧
    (st.total = none ∨ ∃ l, st.total = some l ∧ l.length = df.nRows)

theorem cStep_inv (df : Table K) (mapped : List (String × String))
    (st : CState K) (pr : String × K × String) (h : compInv df st) :
    compInv df (cStep mapped st pr) := by
  obtain ⟨hf, ht⟩ := h
  unfold cStep
  by_cases hc : st.work.hasCol (mappedSrc mapped pr.1)
  · rw [if_pos hc]
    have hcomplen :
        (dirnorm ((st.work.get (mappedSrc mapped pr.1)).map cellToNum) pr.2.2).length
          = df.nRows := by
      rw [dirnorm_length, List.length_map, Table.get_length_of_wf hf.2.1 hc, hf.2.2.1]
    constructor
    · apply frameInv_set df st.work _ _ hf
      rw [List.length_map, hcomplen, hf.2.2.1]
    · refine Or.inr ⟨_, rfl, ?_⟩
      rcases ht with h0 | ⟨l, hl, hlen⟩
      · rw [h0, List.length_map, hcomplen]
      · rw [hl, List.length_zipWith, hlen, List.length_map, hcomplen, min_self]
  · rw [if_neg hc]
    exact ⟨hf, ht⟩

theorem rank_with_prefs_preScores (sqrtK : K → K) (df : Table K)
    (prefs0 : List (String × K × String)) (sn : Bool) :
    (rank_with_prefs sqrtK df prefs0 sn).preScores = rwpScores sqrtK df prefs0 sn := rfl

theorem rank_with_prefs_preRanks (sqrtK : K → K) (df : Table K)
    (prefs0 : List (String × K × String)) (sn : Bool) :
    (rank_with_prefs sqrtK df prefs0 sn).preRanks = rwpRanks sqrtK df prefs0 sn := rfl

theorem rank_with_prefs_perm (sqrtK : K → K) (df : Table K)
    (prefs0 : List (String × K × String)) (sn : Bool) :
    (rank_with_prefs sqrtK df prefs0 sn).perm = rwpPerm sqrtK df prefs0 sn := rfl

theorem rank_with_prefs_ordered (sqrtK : K → K) (df : Table K)
    (prefs0 : List (String × K × String)) (sn : Bool) :
    (rank_with_prefs sqrtK df prefs0 sn).ordered
      = reorderCols (rwpFront sqrtK df prefs0 sn)
          (permuteRows (rwpPerm sqrtK df prefs0 sn) (rwpWork4 sqrtK df prefs0 sn)) := rfl

theorem rwpZst_inv (sqrtK : K → K) (df : Table K)
    (prefs0 : List (String × K × String)) (sn : Bool) (hwf : df.wf) (hne : df ≠ []) :
    frameInv df (rwpZst sqrtK df prefs0 sn).work :=
  runZ_inv sqrtK df (normalizeWeights prefs0) sn ⟨hne, hwf, rfl, fun h => h⟩

theorem rwpCst_inv (sqrtK : K → K) (df : Table K)
    (prefs0 : List (String × K × String)) (sn : Bool) (hwf : df.wf) (hne : df ≠ []) :
    compInv df (rwpCst sqrtK df prefs0 sn) := by
  unfold rwpCst
  exact foldl_inv (compInv df) (cStep (rwpZst sqrtK df prefs0 sn).mapped) _
    ⟨(rwpZst sqrtK df prefs0 sn).work, [], none⟩
    ⟨rwpZst_inv sqrtK df prefs0 sn hwf hne, Or.inl rfl⟩
    (fun a b _ hb => cStep_inv df _ a b hb)

theorem rwpScores_length (sqrtK : K → K) (df : Table K)
    (prefs0 : List (String × K × String)) (sn : Bool) (hwf : df.wf) (hne : df ≠ []) :
    (rwpScores sqrtK df prefs0 sn).length = df.nRows := by
  have hcinv := rwpCst_inv sqrtK df prefs0 sn hwf hne
  unfold rwpScores
  rcases hcinv.2 with h0 | ⟨l, hl, hlen⟩
  · rw [h0]
    simp [hcinv.1.2.2.1]
  · rw [hl]
    exact hlen

theorem rwpRanks_length (sqrtK : K → K) (df : Table K)
    (prefs0 : List (String × K × String)) (sn : Bool) (hwf : df.wf) (hne : df ≠ []) :
    (rwpRanks sqrtK df prefs0 sn).length = df.nRows := by
  unfold rwpRanks rankMinDesc
  rw [List.length_map]
  exact rwpScores_length sqrtK df prefs0 sn hwf hne

theorem rwpWork4_inv (sqrtK : K → K) (df : Table K)
    (prefs0 : List (String × K × String)) (sn : Bool) (hwf : df.wf) (hne : df ≠ []) :
    frameInv df (rwpWork4 sqrtK df prefs0 sn) := by
  have hcinv := rwpCst_inv sqrtK df prefs0 sn hwf hne
  unfold rwpWork4
  have h3 : frameInv df ((rwpCst sqrtK df prefs0 sn).work.set "score_total"
      ((rwpScores sqrtK df prefs0 sn).map Cell.num)) := by
    apply frameInv_set df _ _ _ hcinv.1
    rw [List.length_map, rwpScores_length sqrtK df prefs0 sn hwf hne, hcinv.1.2.2.1]
  apply frameInv_set df _ _ _ h3
  rw [List.length_map, rwpRanks_length sqrtK df prefs0 sn hwf hne, h3.2.2.1]

theorem rwpWork4_nRows (sqrtK : K → K) (df : Table K)
    (prefs0 : List (String × K × String)) (sn : Bool) (hwf : df.wf) (hne : df ≠ []) :
    Table.nRows (rwpWork4 sqrtK df prefs0 sn) = df.nRows :=
  (rwpWork4_inv sqrtK df prefs0 sn hwf hne).2.2.1

theorem rwpWork4_get_rank (sqrtK : K → K) (df : Table K)
    (prefs0 : List (String × K × String)) (sn : Bool) :
    (rwpWork4 sqrtK df prefs0 sn).get "rank"
      = (rwpRanks sqrtK df prefs0 sn).map (fun r => Cell.int (Int.ofNat r)) := by
  unfold rwpWork4
  exact Table.get_set_self _ "rank" _

theorem rwpWork4_get_score (sqrtK : K → K) (df : Table K)
    (prefs0 : List (String × K × String)) (sn : Bool) :
    (rwpWork4 sqrtK df prefs0 sn).get "score_total"
      = (rwpScores sqrtK df prefs0 sn).map Cell.num := by
  unfold rwpWork4
  rw [Table.get_set_ne _ (by decide) _]
  exact Table.get_set_self _ "score_total" _

theorem rwpWork4_hasCol_rank (sqrtK : K → K) (df : Table K)
    (prefs0 : List (String × K × String)) (sn : Bool) :
    (rwpWork4 sqrtK df prefs0 sn).hasCol "rank" = true := by
  unfold rwpWork4
  exact Table.hasCol_set_self _ "rank" _

theorem rwpWork4_hasCol_score (sqrtK : K → K) (df : Table K)
    (prefs0 : List (String × K × String)) (sn : Bool) :
    (rwpWork4 sqrtK df prefs0 sn).hasCol "score_total" = true := by
  unfold rwpWork4
  apply Table.hasCol_set_of
  exact Table.hasCol_set_self _ "score_total" _

theorem rank_mem_rwpFront (sqrtK : K → K) (df : Table K)
    (prefs0 : List (String × K × String)) (sn : Bool) :
    "rank" ∈ rwpFront sqrtK df prefs0 sn := by
  unfold rwpFront
  apply List.mem_filter.mpr
  refine ⟨by simp, by simpa using rwpWork4_hasCol_rank sqrtK df prefs0 sn⟩

theorem score_mem_rwpFront (sqrtK : K → K) (df : Table K)
    (prefs0 : List (String × K × String)) (sn : Bool) :
    "score_total" ∈ rwpFront sqrtK df prefs0 sn := by
  unfold rwpFront
  apply List.mem_filter.mpr
  refine ⟨by simp, by simpa using rwpWork4_hasCol_score sqrtK df prefs0 sn⟩

theorem rwpPerm_eq (sqrtK : K → K) (df : Table K)
    (prefs0 : List (String × K × String)) (sn : Bool) (hwf : df.wf) (hne : df ≠ []) :
    rwpPerm sqrtK df prefs0 sn
      = sortPerm (rwpRanks sqrtK df prefs0 sn) (rwpScores sqrtK df prefs0 sn)
          df.nRows := by
  unfold rwpPerm
  rw [rwpWork4_nRows sqrtK df prefs0 sn hwf hne]

theorem rwpPerm_mem_lt (sqrtK : K → K) (df : Table K)
    (prefs0 : List (String × K × String)) (sn : Bool) (hwf : df.wf) (hne : df ≠ []) :
    ∀ i ∈ rwpPerm sqrtK df prefs0 sn, i < df.nRows := by
  rw [rwpPerm_eq sqrtK df prefs0 sn hwf hne]
  exact sortPerm_mem_lt _ _ _

/-- The `rank` column of the ordered output is the permuted pre-sort rank
list. -/
theorem ordered_rank_col (sqrtK : K → K) (df : Table K)
    (prefs0 : List (String × K × String)) (sn : Bool) (hwf : df.wf) (hne : df ≠ []) :
    (rank_with_prefs sqrtK df prefs0 sn).ordered.get "rank"
      = (rwpPerm sqrtK df prefs0 sn).map
          (fun i => Cell.int (Int.ofNat ((rwpRanks sqrtK df prefs0 sn).getD i 0))) := by
  rw [rank_with_prefs_ordered,
    get_reorderCols_of_mem _ _ (rank_mem_rwpFront sqrtK df prefs0 sn),
    get_permuteRows _ _ (rwpWork4_hasCol_rank sqrtK df prefs0 sn),
    rwpWork4_get_rank]
  apply List.map_congr_left
  intro i hi
  have hilt : i < (rwpRanks sqrtK df prefs0 sn).length := by
    rw [rwpRanks_length sqrtK df prefs0 sn hwf hne]
    exact rwpPerm_mem_lt sqrtK df prefs0 sn hwf hne i hi
  rw [getD_map_lt _ _ hilt 0]

/-- The `score_total` column of the ordered output is the permuted pre-sort
score list. -/
theorem ordered_score_col (sqrtK : K → K) (df : Table K)
    (prefs0 : List (String × K × String)) (sn : Bool) (hwf : df.wf) (hne : df ≠ []) :
    (rank_with_prefs sqrtK df prefs0 sn).ordered.get "score_total"
      = (rwpPerm sqrtK df prefs0 sn).map
          (fun i => Cell.num ((rwpScores sqrtK df prefs0 sn).getD i 0)) := by
  rw [rank_with_prefs_ordered,
    get_reorderCols_of_mem _ _ (score_mem_rwpFront sqrtK df prefs0 sn),
    get_permuteRows _ _ (rwpWork4_hasCol_score sqrtK df prefs0 sn),
    rwpWork4_get_score]
  apply List.map_congr_left
  intro i hi
  have hilt : i < (rwpScores sqrtK df prefs0 sn).length := by
    rw [rwpScores_length sqrtK df prefs0 sn hwf hne]
    exact rwpPerm_mem_lt sqrtK df prefs0 sn hwf hne i hi
  rw [getD_map_lt _ _ hilt 0]

/-! ## Claim C3: output ordering -/

theorem getD_mem {α : Type} (l : List α) {i : ℕ} (hi : i < l.length) (d : α) :
    l.getD i d ∈ l := by
  rw [List.getD_eq_getElem?_getD, List.getElem?_eq_getElem hi]
  exact List.getElem_mem hi

theorem ranks_getD (scores : List K) {i : ℕ} (hi : i < scores.length) :
    (rankMinDesc scores).getD i 0
      = scores.countP (fun w => decide (scores.getD i 0 < w)) + 1 := by
  rw [rankMinDesc_eq_countGT, getD_map_lt scores _ hi 0]

theorem rank_eq_of_score_eq (scores : List K) {i j : ℕ}
    (hi : i < scores.length) (hj : j < scores.length)
    (h : scores.getD i 0 = scores.getD j 0) :
    (rankMinDesc scores).getD i 0 = (rankMinDesc scores).getD j 0 := by
  rw [ranks_getD scores hi, ranks_getD scores hj, h]

theorem score_eq_of_rank_eq (scores : List K) {i j : ℕ}
    (hi : i < scores.length) (hj : j < scores.length)
    (h : (rankMinDesc scores).getD i 0 = (rankMinDesc scores).getD j 0) :
    scores.getD i 0 = scores.getD j 0 := by
  rw [ranks_getD scores hi, ranks_getD scores hj] at h
  exact (rank_eq_iff_score_eq scores (getD_mem scores hi 0) (getD_mem scores hj 0)).mp
    (Nat.succ_injective h)

theorem sortPerm_pairwise (ranks : List ℕ) (scores : List K) (n : ℕ) :
    ∀ a b, a < b → b < (sortPerm ranks scores n).length →
      rowLe ranks scores ((sortPerm ranks scores n).getD a 0)
        ((sortPerm ranks scores n).getD b 0) := by
  intro a b hab hb
  have ha : a < (sortPerm ranks scores n).length := lt_trans hab hb
  have hpw := List.pairwise_iff_getElem.mp (sortPerm_sorted ranks scores n)
  have := hpw a b ha hb hab
  rw [List.getD_eq_getElem?_getD, List.getElem?_eq_getElem ha,
    List.getD_eq_getElem?_getD, List.getElem?_eq_getElem hb]
  exact this

theorem sortPerm_getD_ne (ranks : List ℕ) (scores : List K) (n : ℕ) :
    ∀ a b, a < b → b < (sortPerm ranks scores n).length →
      (sortPerm ranks scores n).getD a 0 ≠ (sortPerm ranks scores n).getD b 0 := by
  intro a b hab hb
  have ha : a < (sortPerm ranks scores n).length := lt_trans hab hb
  have hnd := sortPerm_nodup ranks scores n
  have hpw := List.pairwise_iff_getElem.mp hnd
  have := hpw a b ha hb hab
  rw [List.getD_eq_getElem?_getD, List.getElem?_eq_getElem ha,
    List.getD_eq_getElem?_getD, List.getElem?_eq_getElem hb]
  exact this

/-- C3: the ranked output table produced by `rank_from_csv` is ordered by rank
ascending, and then (vacuously, since equal min-rank forces equal score) by
`score_total` descending; rows with exactly equal `score_total` appear in
their original input-table order.  Stated through the row permutation `perm`
that carries the ordered table's rows back to input rows: the `rank` and
`score_total` columns of the ordered table are the permuted pre-sort columns,
`perm` is a permutation of the row indices, consecutive rows are ordered by
(rank asc, score desc), and among equal scores `perm` is increasing (original
order). -/
theorem claim_C3_output_order (sqrtK : K → K) (df : Table K)
    (prefs0 : List (String × K × String)) (sn : Bool)
    (hwf : df.wf) (ht : df.hasCol "ticker" = true) :
    let res := rank_with_prefs sqrtK df prefs0 sn
    (res.ordered.get "rank"
        = res.perm.map (fun i => Cell.int (Int.ofNat (res.preRanks.getD i 0)))
      ∧ res.ordered.get "score_total"
        = res.perm.map (fun i => Cell.num (res.preScores.getD i 0))) ∧
    List.Perm res.perm (List.range df.nRows) ∧
    (∀ a b, a < b → b < res.perm.length →
      res.preRanks.getD (res.perm.getD a 0) 0 < res.preRanks.getD (res.perm.getD b 0) 0
      ∨ (res.preRanks.getD (res.perm.getD a 0) 0 = res.preRanks.getD (res.perm.getD b 0) 0
         ∧ res.preScores.getD (res.perm.getD b 0) 0
             ≤ res.preScores.getD (res.perm.getD a 0) 0)) ∧
    (∀ a b, a < b → b < res.perm.length →
      res.preScores.getD (res.perm.getD a 0) 0 = res.preScores.getD (res.perm.getD b 0) 0 →
      res.perm.getD a 0 < res.perm.getD b 0) := by
  intro res
  have hne : df ≠ [] := by
    intro e
    rw [e] at ht
    simp [Table.hasCol] at ht
  have hpr : res.preRanks = rwpRanks sqrtK df prefs0 sn := rfl
  have hps : res.preScores = rwpScores sqrtK df prefs0 sn := rfl
  have hpp : res.perm = rwpPerm sqrtK df prefs0 sn := rfl
  have hperm_eq := rwpPerm_eq sqrtK df prefs0 sn hwf hne
  have hslen := rwpScores_length sqrtK df prefs0 sn hwf hne
  have hmemlt := rwpPerm_mem_lt sqrtK df prefs0 sn hwf hne
  refine ⟨⟨ordered_rank_col sqrtK df prefs0 sn hwf hne,
           ordered_score_col sqrtK df prefs0 sn hwf hne⟩, ?_, ?_, ?_⟩
  · rw [hpp, hperm_eq]
    exact sortPerm_perm _ _ _
  · intro a b hab hb
    have hrow := sortPerm_pairwise (rwpRanks sqrtK df prefs0 sn)
      (rwpScores sqrtK df prefs0 sn) df.nRows a b hab (by
        rw [hpp, hperm_eq] at hb
        exact hb)
    rw [hpp, hperm_eq]
    rw [hpp, hperm_eq] at hb
    have ha : a < (sortPerm (rwpRanks sqrtK df prefs0 sn) (rwpScores sqrtK df prefs0 sn)
        df.nRows).length := lt_trans hab hb
    set p := sortPerm (rwpRanks sqrtK df prefs0 sn) (rwpScores sqrtK df prefs0 sn) df.nRows
      with hp
    have hpa : p.getD a 0 < (rwpScores sqrtK df prefs0 sn).length := by
      rw [hslen]
      exact sortPerm_mem_lt _ _ _ _ (getD_mem p ha 0)
    have hpb : p.getD b 0 < (rwpScores sqrtK df prefs0 sn).length := by
      rw [hslen]
      exact sortPerm_mem_lt _ _ _ _ (getD_mem p hb 0)
    unfold rowLe at hrow
    rcases hrow with h1 | ⟨h1, h2⟩
    · exact Or.inl h1
    · refine Or.inr ⟨h1, ?_⟩
      have hseq : (rwpScores sqrtK df prefs0 sn).getD (p.getD a 0) 0
          = (rwpScores sqrtK df prefs0 sn).getD (p.getD b 0) 0 :=
        score_eq_of_rank_eq (rwpScores sqrtK df prefs0 sn) hpa hpb h1
      rw [hps, hseq]
  · intro a b hab hb hscore
    rw [hpp, hperm_eq] at hb hscore ⊢
    rw [hps] at hscore
    have hrow := sortPerm_pairwise (rwpRanks sqrtK df prefs0 sn)
      (rwpScores sqrtK df prefs0 sn) df.nRows a b hab hb
    have hne2 := sortPerm_getD_ne (rwpRanks sqrtK df prefs0 sn)
      (rwpScores sqrtK df prefs0 sn) df.nRows a b hab hb
    have ha : a < (sortPerm (rwpRanks sqrtK df prefs0 sn) (rwpScores sqrtK df prefs0 sn)
        df.nRows).length := lt_trans hab hb
    set p := sortPerm (rwpRanks sqrtK df prefs0 sn) (rwpScores sqrtK df prefs0 sn) df.nRows
      with hp
    have hpa : p.getD a 0 < (rwpScores sqrtK df prefs0 sn).length := by
      rw [hslen]
      exact sortPerm_mem_lt _ _ _ _ (getD_mem p ha 0)
    have hpb : p.getD b 0 < (rwpScores sqrtK df prefs0 sn).length := by
      rw [hslen]
      exact sortPerm_mem_lt _ _ _ _ (getD_mem p hb 0)
    have hrankeq : (rwpRanks sqrtK df prefs0 sn).getD (p.getD a 0) 0
        = (rwpRanks sqrtK df prefs0 sn).getD (p.getD b 0) 0 := by
      unfold rwpRanks
      exact rank_eq_of_score_eq _ hpa hpb hscore
    unfold rowLe at hrow
    rcases hrow with h1 | ⟨h1, h2⟩
    · exact absurd hrankeq (Nat.ne_of_lt h1)
    · rcases h2 with h2 | ⟨h2, h3⟩
      · exact absurd hscore (ne_of_lt h2)
      · exact lt_of_le_of_ne h3 hne2

/-! ## Claim C4: min-rank closed form and duplicate stability -/

theorem getD_append_left_lt {α : Type} (l l' : List α) {i : ℕ} (h : i < l.length)
    (d : α) : (l ++ l').getD i d = l.getD i d := by
  rw [List.getD_eq_getElem?_getD, List.getD_eq_getElem?_getD, List.getElem?_append]
  rw [if_pos h]

theorem getD_append_at_length {α : Type} (l : List α) (v d : α) :
    (l ++ [v]).getD l.length d = v := by
  rw [List.getD_eq_getElem?_getD, List.getElem?_append_right (le_refl l.length)]
  simp

/-- C4: for every table, the min-rank of each row is one plus the number of
rows with strictly greater `score_total` (first conjunct, for every score list
— in particular for the list extended by a duplicate, so the next distinct
score still ranks at count-of-strictly-better plus one); equal scores receive
the identical rank (second conjunct); and appending a row duplicating row
`i`'s score leaves row `i`'s rank unchanged while the appended row receives
that same minimum rank (third and fourth conjuncts). -/
theorem claim_C4_min_rank (scores : List K) (i : ℕ) (hi : i < scores.length) :
    (rankMinDesc scores).getD i 0
      = scores.countP (fun w => decide (scores.getD i 0 < w)) + 1 ∧
    (∀ j, j < scores.length → scores.getD j 0 = scores.getD i 0 →
      (rankMinDesc scores).getD j 0 = (rankMinDesc scores).getD i 0) ∧
    (rankMinDesc (scores ++ [scores.getD i 0])).getD i 0
      = (rankMinDesc scores).getD i 0 ∧
    (rankMinDesc (scores ++ [scores.getD i 0])).getD scores.length 0
      = (rankMinDesc scores).getD i 0 := by
  set v := scores.getD i 0 with hv
  have hileft : i < (scores ++ [v]).length := by
    rw [List.length_append, List.length_singleton]
    omega
  have hlenlt : scores.length < (scores ++ [v]).length := by
    rw [List.length_append, List.length_singleton]
    omega
  have hcount : (scores ++ [v]).countP (fun w => decide (v < w))
      = scores.countP (fun w => decide (v < w)) := by
    rw [List.countP_append]
    have : [v].countP (fun w => decide (v < w)) = 0 := by
      rw [List.countP_eq_zero]
      intro a ha
      rcases List.mem_singleton.mp ha with rfl
      simp
    rw [this, Nat.add_zero]
  refine ⟨ranks_getD scores hi, ?_, ?_, ?_⟩
  · intro j hj hsc
    exact rank_eq_of_score_eq scores hj hi hsc
  · rw [ranks_getD (scores ++ [v]) hileft, ranks_getD scores hi,
      getD_append_left_lt scores [v] hi 0, ← hv, hcount]
  · rw [ranks_getD (scores ++ [v]) hlenlt, ranks_getD scores hi,
      getD_append_at_length scores v 0, ← hv, hcount]

/-! ## Claim C7: spec attributes absent from the table -/

theorem normalizeWeights_mem_key {prefs : List (String × K × String)}
    {p : String × K × String} (hp : p ∈ normalizeWeights prefs) :
    ∃ q ∈ prefs, (p : String × K × String).1 = (q : String × K × String).1 := by
  unfold normalizeWeights at hp
  simp only at hp
  rcases List.mem_map.mp hp with ⟨q, hq, rfl⟩
  exact ⟨q, hq, rfl⟩

theorem rwpZst_absent (sqrtK : K → K) (df : Table K)
    (prefs0 : List (String × K × String)) (sn : Bool)
    (habs : ∀ p ∈ prefs0, df.hasCol (p : String × K × String).1 = false) :
    rwpZst sqrtK df prefs0 sn = ⟨df, [], []⟩ := by
  unfold rwpZst runZ
  by_cases hg : sn && df.hasCol "sector"
  · rw [if_pos hg]
    have : ∀ st : ZState K, st = ⟨df, [], []⟩ →
        (normalizeWeights prefs0).foldl (zStep sqrtK) st = ⟨df, [], []⟩ := by
      intro st hst
      have := foldl_inv (fun st2 : ZState K => st2 = ⟨df, [], []⟩) (zStep sqrtK)
        (normalizeWeights prefs0) st hst ?_
      · exact this
      · intro a b hb ha
        rw [ha]
        unfold zStep
        rcases normalizeWeights_mem_key hb with ⟨q, hq, he⟩
        have : Table.hasCol df b.1 = false := by rw [he]; exact habs q hq
        simp only [this]
        rw [if_neg (by simp)]
    exact this _ rfl
  · rw [if_neg hg]

theorem rwpCst_absent (sqrtK : K → K) (df : Table K)
    (prefs0 : List (String × K × String)) (sn : Bool)
    (habs : ∀ p ∈ prefs0, df.hasCol (p : String × K × String).1 = false) :
    rwpCst sqrtK df prefs0 sn = ⟨df, [], none⟩ := by
  unfold rwpCst
  rw [rwpZst_absent sqrtK df prefs0 sn habs]
  have : ∀ st : CState K, st = ⟨df, [], none⟩ →
      (normalizeWeights prefs0).foldl (cStep (ZState.mapped ⟨df, [], []⟩)) st
        = ⟨df, [], none⟩ := by
    intro st hst
    have := foldl_inv (fun st2 : CState K => st2 = ⟨df, [], none⟩)
      (cStep (ZState.mapped ⟨df, [], []⟩)) (normalizeWeights prefs0) st hst ?_
    · exact this
    · intro a b hb ha
      rw [ha]
      unfold cStep
      rcases normalizeWeights_mem_key hb with ⟨q, hq, he⟩
      have hsrc : mappedSrc (ZState.mapped ⟨df, [], []⟩) b.1 = b.1 := rfl
      rw [hsrc]
      have : Table.hasCol df b.1 = false := by rw [he]; exact habs q hq
      rw [if_neg (by simp [this])]
  exact this _ rfl

theorem rankMinDesc_replicate_zero (n : ℕ) :
    rankMinDesc (List.replicate n (0 : K)) = List.replicate n 1 := by
  rw [rankMinDesc_eq_countGT, List.map_replicate]
  congr 1
  have h0 : (List.replicate n (0 : K)).countP (fun w => decide ((0 : K) < w)) = 0 := by
    rw [List.countP_eq_zero]
    intro a ha
    rcases List.eq_of_mem_replicate ha with rfl
    simp
  rw [h0]

/-- C7: attributes named in a non-empty spec but absent from the table are
skipped without error — no component column is created — and when none of the
spec's attributes exists in the table every row receives `score_total = 0.0`
and `rank = 1`, both in the pre-sort frame and in the ordered output. -/
theorem claim_C7_absent_attributes (sqrtK : K → K) (df : Table K)
    (prefs0 : List (String × K × String)) (sn : Bool)
    (hpne : prefs0 ≠ [])
    (habs : ∀ p ∈ prefs0, df.hasCol (p : String × K × String).1 = false)
    (hwf : df.wf) (ht : df.hasCol "ticker" = true) :
    let res := rank_with_prefs sqrtK df prefs0 sn
    res.compCols = [] ∧
    res.preScores = List.replicate df.nRows 0 ∧
    res.preRanks = List.replicate df.nRows 1 ∧
    (∀ cl ∈ res.ordered.get "score_total", cl = Cell.num 0) ∧
    (∀ cl ∈ res.ordered.get "rank", cl = Cell.int 1) := by
  intro res
  have hne : df ≠ [] := by
    intro e
    rw [e] at ht
    simp [Table.hasCol] at ht
  have hcst := rwpCst_absent sqrtK df prefs0 sn habs
  have hscores : rwpScores sqrtK df prefs0 sn = List.replicate df.nRows 0 := by
    unfold rwpScores
    rw [hcst]
  have hranks : rwpRanks sqrtK df prefs0 sn = List.replicate df.nRows 1 := by
    unfold rwpRanks
    rw [hscores, rankMinDesc_replicate_zero]
  have hcomp : res.compCols = [] := by
    have : res.compCols = (rwpCst sqrtK df prefs0 sn).compCols := rfl
    rw [this, hcst]
  refine ⟨hcomp, hscores, hranks, ?_, ?_⟩
  · rw [show res.ordered = (rank_with_prefs sqrtK df prefs0 sn).ordered from rfl]
    rw [ordered_score_col sqrtK df prefs0 sn hwf hne]
    intro cl hcl
    rcases List.mem_map.mp hcl with ⟨i, hi, rfl⟩
    have hilt : i < df.nRows := rwpPerm_mem_lt sqrtK df prefs0 sn hwf hne i hi
    rw [hscores]
    congr 1
    rw [List.getD_eq_getElem?_getD, List.getElem?_replicate]
    simp [hilt]
  · rw [show res.ordered = (rank_with_prefs sqrtK df prefs0 sn).ordered from rfl]
    rw [ordered_rank_col sqrtK df prefs0 sn hwf hne]
    intro cl hcl
    rcases List.mem_map.mp hcl with ⟨i, hi, rfl⟩
    have hilt : i < df.nRows := rwpPerm_mem_lt sqrtK df prefs0 sn hwf hne i hi
    rw [hranks]
    have : (List.replicate df.nRows 1).getD i 0 = 1 := by
      rw [List.getD_eq_getElem?_getD, List.getElem?_replicate]
      simp [hilt]
    rw [this]
    rfl

/-! ## Claim C10: all-zero weights -/

theorem listSum_eq_zero {l : List K} (h : ∀ x ∈ l, x = 0) : listSum l = 0 := by
  unfold listSum
  have : ∀ acc : K, l.foldl (· + ·) acc = acc := by
    induction l with
    | nil => intro acc; rfl
    | cons a t ih =>
      intro acc
      rw [List.foldl_cons, h a (List.mem_cons_self a t), add_zero]
      exact ih (fun x hx => h x (List.mem_cons_of_mem a hx)) acc
  exact this 0

theorem map_mul_zero (l : List K) :
    l.map (fun v => v * (0 : K)) = List.replicate l.length 0 := by
  induction l with
  | nil => rfl
  | cons a t ih =>
    rw [List.map_cons, mul_zero, List.length_cons, List.replicate_succ, ih]

theorem zipWith_replicate_add (n : ℕ) :
    List.zipWith (· + ·) (List.replicate n (0 : K)) (List.replicate n 0)
      = List.replicate n 0 := by
  induction n with
  | zero => rfl
  | succ m ih =>
    rw [List.replicate_succ, List.zipWith_cons_cons, add_zero, ih]

theorem normalizeWeights_zero {prefs : List (String × K × String)}
    (h : ∀ p ∈ prefs, (p : String × K × String).2.1 = 0) :
    normalizeWeights prefs = prefs := by
  unfold normalizeWeights
  have hs : listSum (prefs.map (fun p => p.2.1)) = 0 := by
    apply listSum_eq_zero
    intro x hx
    rcases List.mem_map.mp hx with ⟨p, hp, rfl⟩
    exact h p hp
  simp only [hs, eq_self_iff_true, if_true]
  have : ∀ p ∈ prefs, (fun p : String × K × String => (p.1, p.2.1 / 1, p.2.2)) p = p := by
    intro p _
    simp
  rw [List.map_congr_left this]
  exact List.map_id prefs

/-- C10: when the sanitized spec is non-empty but every weight is `0.0`, the
weight-normalization divisor falls back to `1.0` (no division by zero), the
weights are unchanged — still summing to `0`, not `1` — and every row's
`score_total` is `0.0`, in the pre-sort frame and in the ordered output. -/
theorem claim_C10_zero_weights (sqrtK : K → K) (df : Table K)
    (prefs0 : List (String × K × String)) (sn : Bool)
    (hpne : prefs0 ≠ [])
    (hzero : ∀ p ∈ prefs0, (p : String × K × String).2.1 = 0)
    (hwf : df.wf) (ht : df.hasCol "ticker" = true) :
    let res := rank_with_prefs sqrtK df prefs0 sn
    res.prefsNorm = prefs0 ∧
    listSum (res.prefsNorm.map (fun p => p.2.1)) = 0 ∧
    res.preScores = List.replicate df.nRows 0 ∧
    (∀ cl ∈ res.ordered.get "score_total", cl = Cell.num 0) := by
  intro res
  have hne : df ≠ [] := by
    intro e
    rw [e] at ht
    simp [Table.hasCol] at ht
  have hnw : normalizeWeights prefs0 = prefs0 := normalizeWeights_zero hzero
  have hprefsNorm : res.prefsNorm = prefs0 := by
    rw [show res.prefsNorm = normalizeWeights prefs0 from rfl, hnw]
  have hzstinv : frameInv df (rwpZst sqrtK df prefs0 sn).work :=
    rwpZst_inv sqrtK df prefs0 sn hwf hne
  have hQ : frameInv df (rwpCst sqrtK df prefs0 sn).work ∧
      ((rwpCst sqrtK df prefs0 sn).total = none ∨
        (rwpCst sqrtK df prefs0 sn).total = some (List.replicate df.nRows 0)) := by
    unfold rwpCst
    rw [hnw]
    apply foldl_inv (fun st : CState K => frameInv df st.work ∧
      (st.total = none ∨ st.total = some (List.replicate df.nRows 0)))
      (cStep (rwpZst sqrtK df prefs0 sn).mapped) prefs0 _ ⟨hzstinv, Or.inl rfl⟩
    intro a b hb hP
    obtain ⟨hf, htot⟩ := hP
    unfold cStep
    by_cases hc : a.work.hasCol (mappedSrc (rwpZst sqrtK df prefs0 sn).mapped b.1)
    · rw [if_pos hc]
      have hcomplen :
          (dirnorm ((a.work.get (mappedSrc (rwpZst sqrtK df prefs0 sn).mapped b.1)).map
            cellToNum) b.2.2).length = df.nRows := by
        rw [dirnorm_length, List.length_map, Table.get_length_of_wf hf.2.1 hc, hf.2.2.1]
      have hmap : (dirnorm ((a.work.get (mappedSrc (rwpZst sqrtK df prefs0 sn).mapped
          b.1)).map cellToNum) b.2.2).map (fun v => v * b.2.1)
            = List.replicate df.nRows 0 := by
        rw [hzero b hb, map_mul_zero, hcomplen]
      constructor
      · apply frameInv_set df a.work _ _ hf
        rw [List.length_map, hcomplen, hf.2.2.1]
      · apply Or.inr
        rcases htot with h0 | h0
        · rw [h0]
          simp only
          rw [hmap]
        · rw [h0]
          simp only
          rw [hmap, zipWith_replicate_add]
    · rw [if_neg hc]
      exact ⟨hf, htot⟩
  have hscores : rwpScores sqrtK df prefs0 sn = List.replicate df.nRows 0 := by
    unfold rwpScores
    rcases hQ.2 with h0 | h0
    · rw [h0]
      simp only
      rw [hQ.1.2.2.1]
    · rw [h0]
  refine ⟨hprefsNorm, ?_, hscores, ?_⟩
  · rw [hprefsNorm]
    apply listSum_eq_zero
    intro x hx
    rcases List.mem_map.mp hx with ⟨p, hp, rfl⟩
    exact hzero p hp
  · rw [show res.ordered = (rank_with_prefs sqrtK df prefs0 sn).ordered from rfl]
    rw [ordered_score_col sqrtK df prefs0 sn hwf hne]
    intro cl hcl
    rcases List.mem_map.mp hcl with ⟨i, hi, rfl⟩
    have hilt : i < df.nRows := rwpPerm_mem_lt sqrtK df prefs0 sn hwf hne i hi
    rw [hscores]
    congr 1
    rw [List.getD_eq_getElem?_getD, List.getElem?_replicate]
    simp [hilt]

/-! ## Claims C5 and C6: the normalizer -/

theorem filterMap_id_map_some (v : List K) :
    (v.map some).filterMap id = v := by
  induction v with
  | nil => rfl
  | cons a t ih => simp [ih]

theorem map_getD_map_some (v : List K) (med : K) :
    (v.map some).map (fun o => o.getD med) = v := by
  induction v with
  | nil => rfl
  | cons a t ih => simp [ih]

theorem minmax_all_eq {h : K} {t : List K} (hrange : listMax h t = listMin h t) :
    ∀ y ∈ h :: t, y = listMin h t := by
  intro y hy
  have hlo : listMin h t ≤ y := by
    rcases List.mem_cons.mp hy with h1 | h1
    · rw [h1]; exact listMin_le_head h t
    · exact listMin_le_mem h t y h1
  have hhi : y ≤ listMax h t := by
    rcases List.mem_cons.mp hy with h1 | h1
    · rw [h1]; exact head_le_listMax h t
    · exact mem_le_listMax h t y h1
  rw [hrange] at hhi
  exact le_antisymm hhi hlo

theorem listMin_const {a : K} {t : List K} (h : ∀ y ∈ t, y = a) : listMin a t = a := by
  unfold listMin
  induction t with
  | nil => rfl
  | cons b t ih =>
    rw [List.foldl_cons, h b (List.mem_cons_self b t), min_self]
    exact ih (fun y hy => h y (List.mem_cons_of_mem b hy))

theorem listMax_const {a : K} {t : List K} (h : ∀ y ∈ t, y = a) : listMax a t = a := by
  unfold listMax
  induction t with
  | nil => rfl
  | cons b t ih =>
    rw [List.foldl_cons, h b (List.mem_cons_self b t), max_self]
    exact ih (fun y hy => h y (List.mem_cons_of_mem b hy))

theorem getD_of_all_eq {l : List K} {c : K} (h : ∀ x ∈ l, x = c) {k : ℕ}
    (hk : k < l.length) : l.getD k 0 = c :=
  h _ (getD_mem l hk 0)

theorem pdMedian_map_some_cons (h : K) (t : List K) :
    ∃ M, pdMedian ((h :: t).map some) = some M := by
  unfold pdMedian
  rw [filterMap_id_map_some (h :: t)]
  simp only
  by_cases hp : (h :: t).length % 2 = 1
  · exact ⟨_, by rw [if_pos hp]⟩
  · exact ⟨_, by rw [if_neg hp]⟩

/-- The normalized value at position `i` of an all-numeric series, POSITIVE
direction: ordering of outputs matches ordering of inputs. -/
theorem dirnorm_pos_lt_iff (v : List K) {i j : ℕ} (hi : i < v.length)
    (hj : j < v.length) :
    (dirnorm (v.map some) "positive").getD i 0
        < (dirnorm (v.map some) "positive").getD j 0
      ↔ v.getD i 0 < v.getD j 0 := by
  match v with
  | [] => cases hi
  | h :: t =>
    obtain ⟨M, hM⟩ := pdMedian_map_some_cons h t
    unfold dirnorm
    rw [hM]
    simp only
    rw [map_getD_map_some (h :: t) M]
    rw [if_neg (by decide : ¬ ("positive" = "negative"))]
    simp only
    by_cases hrange : listMax h t = listMin h t
    · rw [if_pos hrange]
      have hall := minmax_all_eq hrange
      have hieq : (h :: t).getD i 0 = listMin h t := getD_of_all_eq hall hi
      have hjeq : (h :: t).getD j 0 = listMin h t := getD_of_all_eq hall hj
      have hlen : i < (List.replicate ((h :: t).map some).length ((1 : K) / 2)).length := by
        simpa using hi
      have hlen2 : j < (List.replicate ((h :: t).map some).length ((1 : K) / 2)).length := by
        simpa using hj
      rw [getD_of_all_eq (fun x hx => List.eq_of_mem_replicate hx) hlen,
        getD_of_all_eq (fun x hx => List.eq_of_mem_replicate hx) hlen2,
        hieq, hjeq]
      simp
    · rw [if_neg hrange]
      have hpos : (0 : K) < listMax h t - listMin h t := by
        have := lt_of_le_of_ne (listMin_le_listMax h t) (fun e => hrange e.symm)
        linarith
      rw [getD_map_lt (h :: t) _ hi 0, getD_map_lt (h :: t) _ hj 0]
      rw [div_lt_div_iff_of_pos_right hpos]
      constructor
      · intro hlt; linarith
      · intro hlt; linarith

/-- The normalized value at position `i` of an all-numeric series, NEGATIVE
direction: ordering of outputs is the reverse of the ordering of inputs. -/
theorem dirnorm_neg_lt_iff (v : List K) {i j : ℕ} (hi : i < v.length)
    (hj : j < v.length) :
    (dirnorm (v.map some) "negative").getD j 0
        < (dirnorm (v.map some) "negative").getD i 0
      ↔ v.getD i 0 < v.getD j 0 := by
  match v with
  | [] => cases hi
  | h :: t =>
    obtain ⟨M, hM⟩ := pdMedian_map_some_cons h t
    unfold dirnorm
    rw [hM]
    simp only
    rw [map_getD_map_some (h :: t) M]
    simp only [if_true]
    rw [List.map_cons]
    simp only
    have hneg : ∀ {k : ℕ}, k < (h :: t).length →
        (-h :: t.map fun x => -x).getD k 0 = -((h :: t).getD k 0) := by
      intro k hk
      rw [show (-h :: t.map fun x => -x) = (h :: t).map fun x => -x from by
        rw [List.map_cons]]
      exact getD_map_lt (h :: t) _ hk 0 0
    by_cases hrange : listMax (-h) (t.map fun x => -x) = listMin (-h) (t.map fun x => -x)
    · rw [if_pos hrange]
      have hall := minmax_all_eq hrange
      have hieq : (-h :: t.map fun x => -x).getD i 0
          = listMin (-h) (t.map fun x => -x) := by
        apply getD_of_all_eq hall
        simpa using hi
      have hjeq : (-h :: t.map fun x => -x).getD j 0
          = listMin (-h) (t.map fun x => -x) := by
        apply getD_of_all_eq hall
        simpa using hj
      have hveq : (h :: t).getD i 0 = (h :: t).getD j 0 := by
        have hij := hieq.trans hjeq.symm
        rw [hneg hi, hneg hj] at hij
        linarith [neg_injective hij]
      have hlen : i < (List.replicate ((h :: t).map some).length ((1 : K) / 2)).length := by
        simpa using hi
      have hlen2 : j < (List.replicate ((h :: t).map some).length ((1 : K) / 2)).length := by
        simpa using hj
      rw [getD_of_all_eq (fun x hx => List.eq_of_mem_replicate hx) hlen,
        getD_of_all_eq (fun x hx => List.eq_of_mem_replicate hx) hlen2, hveq]
      simp
    · rw [if_neg hrange]
      have hpos : (0 : K) < listMax (-h) (t.map fun x => -x)
          - listMin (-h) (t.map fun x => -x) := by
        have := lt_of_le_of_ne (listMin_le_listMax (-h) (t.map fun x => -x))
          (fun e => hrange e.symm)
        linarith
      have hilt : i < (-h :: t.map fun x => -x).length := by simpa using hi
      have hjlt : j < (-h :: t.map fun x => -x).length := by simpa using hj
      rw [getD_map_lt _ _ hilt 0, getD_map_lt _ _ hjlt 0]
      rw [div_lt_div_iff_of_pos_right hpos]
      rw [hneg hi, hneg hj]
      constructor
      · intro hlt; linarith
      · intro hlt; linarith

/-- C5: `normalize` returns a series of the same length (same index/order)
whose entries all lie in `[0,1]`, for every series and direction; and on a
strictly increasing all-numeric series, switching the direction from POSITIVE
to NEGATIVE exactly reverses the relative order of the normalized values. -/
theorem claim_C5_normalize_contract (series : List (Option K)) (direction : String) :
    ((dirnorm series direction).length = series.length ∧
      ∀ y ∈ dirnorm series direction, 0 ≤ y ∧ y ≤ 1) ∧
    (∀ v : List K, series = v.map some → v.Sorted (· < ·) →
      ∀ i j, i < v.length → j < v.length →
        ((dirnorm series "positive").getD i 0 < (dirnorm series "positive").getD j 0 ↔
         (dirnorm series "negative").getD j 0 < (dirnorm series "negative").getD i 0)) := by
  refine ⟨⟨dirnorm_length series direction, dirnorm_mem_unitInterval series direction⟩, ?_⟩
  intro v hv _ i j hi hj
  rw [hv]
  exact (dirnorm_pos_lt_iff v hi hj).trans (dirnorm_neg_lt_iff v hi hj).symm

theorem filterMap_id_all_none {series : List (Option K)}
    (h : ∀ x ∈ series, x = none) : series.filterMap id = [] := by
  induction series with
  | nil => rfl
  | cons a t ih =>
    rw [h a (List.mem_cons_self a t)] at *
    simp only [List.filterMap_cons]
    exact ih (fun x hx => h x (List.mem_cons_of_mem none hx))

theorem filterMap_id_all_some {series : List (Option K)} {c : K}
    (h : ∀ x ∈ series, x = some c) :
    series.filterMap id = List.replicate series.length c := by
  induction series with
  | nil => rfl
  | cons a t ih =>
    have ha := h a (List.mem_cons_self a t)
    rw [ha]
    simp only [List.filterMap_cons, List.length_cons, List.replicate_succ]
    rw [ih (fun x hx => h x (List.mem_cons_of_mem a hx))]
    rfl

theorem insertionSort_all_eq {l : List K} {c : K} (h : ∀ x ∈ l, x = c) :
    ∀ x ∈ l.insertionSort (· ≤ ·), x = c := by
  intro x hx
  exact h x ((List.mem_insertionSort _).mp hx)

/-- The median of a nonempty constant list is that constant. -/
theorem pdMedian_const (n : ℕ) (c : K) (hn : 0 < n) :
    pdMedian ((List.replicate n (some c)) : List (Option K)) = some c := by
  have hf : (List.replicate n (some c) : List (Option K)).filterMap id
      = List.replicate n c := by
    have h2 : ∀ x ∈ (List.replicate n (some c) : List (Option K)), x = some c :=
      fun x hx => List.eq_of_mem_replicate hx
    rw [filterMap_id_all_some h2, List.length_replicate]
  unfold pdMedian
  rw [hf]
  match n, hn with
  | Nat.succ m, _ =>
    rw [List.replicate_succ]
    simp only
    have hlen : (c :: List.replicate m c).length = m + 1 := by simp
    have hsortmem : ∀ x ∈ (c :: List.replicate m c).insertionSort (· ≤ ·), x = c := by
      apply insertionSort_all_eq
      intro x hx
      rcases List.mem_cons.mp hx with h1 | h1
      · exact h1
      · exact List.eq_of_mem_replicate h1
    have hsortlen : ((c :: List.replicate m c).insertionSort (· ≤ ·)).length = m + 1 := by
      rw [(List.perm_insertionSort _ _).length_eq, hlen]
    have hget : ∀ k, k < m + 1 →
        ((c :: List.replicate m c).insertionSort (· ≤ ·)).getD k 0 = c := by
      intro k hk
      apply hsortmem
      apply getD_mem
      rw [hsortlen]
      exact hk
    by_cases hp : (c :: List.replicate m c).length % 2 = 1
    · rw [if_pos hp]
      congr 1
      apply hget
      rw [hlen]
      exact Nat.div_lt_self (Nat.succ_pos m) (by norm_num)
    · rw [if_neg hp]
      congr 1
      have h1 : ((c :: List.replicate m c).insertionSort (· ≤ ·)).getD
          ((c :: List.replicate m c).length / 2) 0 = c := by
        apply hget
        rw [hlen]
        exact Nat.div_lt_self (Nat.succ_pos m) (by norm_num)
      have h2 : ((c :: List.replicate m c).insertionSort (· ≤ ·)).getD
          ((c :: List.replicate m c).length / 2 - 1) 0 = c := by
        apply hget
        have : (c :: List.replicate m c).length / 2 < m + 1 := by
          rw [hlen]
          exact Nat.div_lt_self (Nat.succ_pos m) (by norm_num)
        omega
      rw [h1, h2, add_self_div_two]

/-- C6: a column whose entries are all identical, or all missing/unparseable,
normalizes to the neutral `0.5` in every row, for any direction (in particular
both POSITIVE and NEGATIVE). -/
theorem claim_C6_degenerate_neutral (series : List (Option K)) (direction : String)
    (h : (∃ c, ∀ x ∈ series, x = some c) ∨ (∀ x ∈ series, x = none)) :
    dirnorm series direction = List.replicate series.length (1 / 2) := by
  rcases h with ⟨c, hc⟩ | hnone
  · have hrepl : series = List.replicate series.length (some c) := by
      apply List.eq_replicate_of_mem
      exact hc
    cases hn : series.length with
    | zero =>
      have : series = [] := List.eq_nil_of_length_eq_zero hn
      rw [this]
      rfl
    | succ m =>
      have hmed : pdMedian series = some c := by
        rw [hrepl, hn]
        exact pdMedian_const (m + 1) c (Nat.succ_pos m)
      unfold dirnorm
      rw [hmed]
      simp only
      have hs : series.map (fun o => o.getD c) = List.replicate series.length c := by
        rw [hrepl]
        rw [List.map_replicate]
        simp
      rw [hs]
      by_cases hdir : direction = "negative"
      · rw [if_pos hdir, List.map_replicate, hn, List.replicate_succ]
        simp only
        rw [if_pos]
        rw [listMax_const (fun y hy => List.eq_of_mem_replicate hy),
          listMin_const (fun y hy => List.eq_of_mem_replicate hy)]
      · rw [if_neg hdir, hn, List.replicate_succ]
        simp only
        rw [if_pos]
        rw [listMax_const (fun y hy => List.eq_of_mem_replicate hy),
          listMin_const (fun y hy => List.eq_of_mem_replicate hy)]
  · have hmed : pdMedian series = none := by
      unfold pdMedian
      rw [filterMap_id_all_none hnone]
    unfold dirnorm
    rw [hmed]

/-! ## Claim C9: empty spec aborts the request -/

/-- C9: when the resolved preference spec is empty after sanitization, the
ranking request aborts with an error and no ranking table is produced. -/
theorem claim_C9_empty_spec_aborts (sqrtK : K → K) (df : Table K) (content : String)
    (top_n : ℕ) (sn : Bool)
    (ht : df.hasCol "ticker" = true) (hn : df.hasCol "name" = true)
    (hp : prefs_from_text df content = Except.ok ([] : List (String × K × String))) :
    rank_from_csv sqrtK df content top_n sn
      = Except.error "LLM returned no usable preferences. Try a clearer request." := by
  unfold rank_from_csv
  rw [if_pos (by rw [ht, hn]; rfl), hp]

/-! ## Claim C2: tolerance of extraneous text around the oracle's JSON -/

/-- A concrete oracle response: one well-formed JSON object surrounded by
extraneous top-level text. -/
def oracleNoise : String :=
  "Sure. \x7b\"preferences\": \x7b\"beta\": \x7b\"weight\": 1, \"direction\": \"negative\"\x7d\x7d\x7d"

/-- The JSON object embedded in `oracleNoise`. -/
def oraclePrefObj : JsonVal :=
  JsonVal.obj [("preferences", JsonVal.obj [("beta",
    JsonVal.obj [("weight", JsonVal.num 1), ("direction", JsonVal.str "negative")])])]

/-- A two-row test frame with one numeric attribute. -/
def dfA : Table ℚ :=
  [("ticker", [Cell.str "AAA", Cell.str "BBB"]),
   ("name", [Cell.str "Alpha", Cell.str "Beta"]),
   ("beta", [Cell.num 1, Cell.num 2])]

/-- C2 counterexample: for this response — a well-formed JSON object surrounded
by extraneous text — strict parsing fails, the brace-extraction of
`_safe_parse_json` recovers exactly the embedded object, but the preference
resolution step (`prefs_from_text_llm`) parses strictly with no extraction
fallback and fails the request instead of recovering. -/
theorem claim_C2_counterexample :
    json_loads oracleNoise = none ∧
    (extractBraces oracleNoise).bind json_loads = some oraclePrefObj ∧
    safe_parse_json oracleNoise = some oraclePrefObj ∧
    prefs_from_text dfA oracleNoise = Except.error "json.JSONDecodeError" := by
  exact ⟨rfl, rfl, rfl, rfl⟩

/-- C2 amended: only the intent-classification helper `_safe_parse_json`
tolerates extraneous top-level text: when strict parsing fails it parses the
substring from the first brace-open to the last brace-close (failing if that
substring is not itself valid JSON).  The preference-resolution step parses
the whole oracle response strictly and fails the request on any surrounding
text. -/
theorem claim_C2_amended (s : String) (v : JsonVal)
    (hstrict : json_loads (pyStrip s) = none)
    (hstrict2 : json_loads s = none)
    (hext : (extractBraces s).bind json_loads = some v) :
    safe_parse_json s = some v ∧
    ∀ df : Table K, prefs_from_text df s = Except.error "json.JSONDecodeError" := by
  constructor
  · unfold safe_parse_json
    rw [hstrict]
    rcases Option.bind_eq_some.mp hext with ⟨sub, hsub, hparse⟩
    rw [hsub]
    exact hparse
  · intro df
    unfold prefs_from_text
    rw [hstrict2]

/-! ## Claim C1: the export/view contract -/

theorem Table.get_head (t : Table K) (n : ℕ) (c : String) :
    (t.head n).get c = (t.get c).take n := by
  induction t with
  | nil => simp [Table.head, Table.get]
  | cons p t ih =>
    unfold Table.head
    rw [List.map_cons]
    by_cases hp : p.1 = c
    · rw [Table.get_cons_self (show ((p.1, List.take n p.2) : String × List (Cell K)).1 = c
        from hp), Table.get_cons_self hp]
    · rw [Table.get_cons_ne (show ¬ ((p.1, List.take n p.2) : String × List (Cell K)).1 = c
        from hp), Table.get_cons_ne hp]
      exact ih

theorem Table.colNames_head (t : Table K) (n : ℕ) :
    (t.head n).colNames = t.colNames := by
  unfold Table.head Table.colNames
  rw [List.map_map]
  rfl

/-- The scoring core run on `dfA` with a single positive beta preference. -/
def resA : RankResult ℚ := rank_with_prefs (fun q => q) dfA [("beta", 1, "positive")] false

/-- C1 counterexample: with `top_n = 1` on a two-row table, the file written at
export time (`ordered.to_csv`) holds both rows while the view handed to the
caller (`ordered.head(top_n)`) holds one — the exported file is not the
bounded view. -/
theorem claim_C1_counterexample : exportedTable resA ≠ rankView resA 1 := by
  have hwf : dfA.wf := by decide
  have hne : dfA ≠ [] := by decide
  have hlen2 : ((exportedTable resA).get "rank").length = 2 := by
    rw [show exportedTable resA = resA.ordered from rfl]
    rw [show resA = rank_with_prefs (fun q : ℚ => q) dfA [("beta", 1, "positive")] false
      from rfl]
    rw [ordered_rank_col (fun q : ℚ => q) dfA [("beta", 1, "positive")] false hwf hne]
    rw [List.length_map, rwpPerm_eq (fun q : ℚ => q) dfA [("beta", 1, "positive")] false
      hwf hne, sortPerm_length]
    decide
  have hlen1 : ((rankView resA 1).get "rank").length = 1 := by
    rw [show rankView resA 1 = Table.head resA.ordered 1 from rfl, Table.get_head,
      List.length_take]
    rw [show resA = rank_with_prefs (fun q : ℚ => q) dfA [("beta", 1, "positive")] false
      from rfl]
    rw [ordered_rank_col (fun q : ℚ => q) dfA [("beta", 1, "positive")] false hwf hne]
    rw [List.length_map, rwpPerm_eq (fun q : ℚ => q) dfA [("beta", 1, "positive")] false
      hwf hne, sortPerm_length]
    decide
  intro h
  rw [h] at hlen2
  rw [hlen1] at hlen2
  exact absurd hlen2 (by norm_num)

/-- C1 amended: the file written at export time is the full ordered table, not
the top-n view: it has the same columns in the same order and the same values
and row order as the ordered table, of which the view handed to the caller is
exactly the first-`top_n`-rows prefix (same columns, same order, same values);
no recomputation happens at export time. -/
theorem claim_C1_amended (sqrtK : K → K) (df : Table K)
    (prefs0 : List (String × K × String)) (top_n : ℕ) (sn : Bool) :
    exportedTable (rank_with_prefs sqrtK df prefs0 sn)
        = (rank_with_prefs sqrtK df prefs0 sn).ordered ∧
    (rankView (rank_with_prefs sqrtK df prefs0 sn) top_n).colNames
        = (exportedTable (rank_with_prefs sqrtK df prefs0 sn)).colNames ∧
    ∀ c, (rankView (rank_with_prefs sqrtK df prefs0 sn) top_n).get c
        = ((exportedTable (rank_with_prefs sqrtK df prefs0 sn)).get c).take top_n := by
  refine ⟨rfl, ?_, ?_⟩
  · exact Table.colNames_head _ top_n
  · intro c
    exact Table.get_head _ top_n c

/-! ## Claim C8: sector neutralization with a degenerate sector -/

theorem listSum_const {l : List K} {a : K} (h : ∀ x ∈ l, x = a) :
    listSum l = l.length * a := by
  unfold listSum
  have : ∀ acc : K, l.foldl (· + ·) acc = acc + l.length * a := by
    induction l with
    | nil => intro acc; simp
    | cons b t ih =>
      intro acc
      rw [List.foldl_cons, h b (List.mem_cons_self b t),
        ih (fun x hx => h x (List.mem_cons_of_mem b hx))]
      rw [List.length_cons]
      push_cast
      ring
  rw [this 0, zero_add]

theorem listMean_const {l : List K} {a : K} (hne : l ≠ []) (h : ∀ x ∈ l, x = a) :
    listMean l = a := by
  unfold listMean
  rw [listSum_const h]
  have hlen : (l.length : K) ≠ 0 := by
    have : l.length ≠ 0 := fun e => hne (List.eq_nil_of_length_eq_zero e)
    exact_mod_cast this
  field_simp

theorem popVar_const {l : List K} {a : K} (hne : l ≠ []) (h : ∀ x ∈ l, x = a) :
    popVar l = 0 := by
  unfold popVar
  have hmean := listMean_const hne h
  have : l.map (fun x => (x - listMean l) * (x - listMean l))
      = List.replicate (l.map (fun x => (x - listMean l) * (x - listMean l))).length 0 := by
    apply List.eq_replicate_of_mem
    intro y hy
    rcases List.mem_map.mp hy with ⟨x, hx, rfl⟩
    rw [h x hx, hmean]
    ring
  rw [this]
  rw [listSum_eq_zero (fun x hx => List.eq_of_mem_replicate hx)]
  simp

/-- The `or 1.0` fallback of the z-score divisor: a nonempty group with all
values identical has standard deviation exactly `0.0`, so the divisor used is
`1.0`. -/
theorem stdOr1_const (sqrtK : K → K) {l : List K} {a : K} (hne : l ≠ [])
    (h : ∀ x ∈ l, x = a) : stdOr1 sqrtK l = 1 := by
  unfold stdOr1
  rw [if_pos (popVar_const hne h)]

theorem getD_zip {α β : Type} (l1 : List α) (l2 : List β) {i : ℕ}
    (h1 : i < l1.length) (h2 : i < l2.length) (d1 : α) (d2 : β) :
    (l1.zip l2).getD i (d1, d2) = (l1.getD i d1, l2.getD i d2) := by
  have hz : i < (l1.zip l2).length := by
    rw [List.length_zip]
    exact lt_min h1 h2
  rw [List.getD_eq_getElem?_getD, List.getElem?_eq_getElem hz,
    List.getD_eq_getElem?_getD, List.getElem?_eq_getElem h1,
    List.getD_eq_getElem?_getD, List.getElem?_eq_getElem h2]
  simp [List.getElem_zip]

theorem zName_inj {a b : String} (h : zName a = zName b) : a = b := by
  unfold zName at h
  have hd := congrArg String.data h
  rw [String.data_append, String.data_append] at hd
  exact String.ext (List.append_cancel_right hd)

theorem sector_ne_zName (c : String) : "sector" ≠ zName c := by
  intro h
  have hl := congrArg String.length h
  unfold zName at hl
  rw [String.length_append] at hl
  rw [show ("sector" : String).length = 6 from rfl] at hl
  rw [show ("__sector_z" : String).length = 10 from rfl] at hl
  omega

theorem ne_zName_self (c : String) : c ≠ zName c := by
  intro h
  have hl := congrArg String.length h
  unfold zName at hl
  rw [String.length_append] at hl
  rw [show ("__sector_z" : String).length = 10 from rfl] at hl
  omega

/-- The within-sector z-transform sends every row of a sector whose values are
all identical to exactly `0`. -/
theorem sectorZ_const_zero (sqrtK : K → K) (keys : List (Cell K))
    (vs : List (Option K)) (gcell : Cell K) (v0 : K)
    (hg : gcell ≠ Cell.na)
    (hlen : keys.length = vs.length)
    (hconst : ∀ k, k < keys.length → keys.getD k Cell.na = gcell →
      vs.getD k none = some v0) :
    ∀ i, i < keys.length → keys.getD i Cell.na = gcell →
      (sectorZ sqrtK keys vs).getD i none = some 0 := by
  intro i hi hkey
  have hvi : vs.getD i none = some v0 := hconst i hi hkey
  have hiv : i < vs.length := by rw [← hlen]; exact hi
  have hzlen : i < (keys.zip vs).length := by
    rw [List.length_zip]
    exact lt_min hi hiv
  unfold sectorZ
  rw [getD_map_lt (keys.zip vs) _ hzlen (Cell.na, none)]
  rw [getD_zip keys vs hi hiv Cell.na none, hkey, hvi]
  rw [if_neg hg]
  set grp := (keys.zip vs).filterMap
    (fun q => if q.1 = gcell then q.2 else none) with hgrp
  have hgrpmem : ∀ x ∈ grp, x = v0 := by
    intro x hx
    rw [hgrp] at hx
    rcases List.mem_filterMap.mp hx with ⟨q, hq, hqx⟩
    by_cases hqg : q.1 = gcell
    · rw [if_pos hqg] at hqx
      rcases List.mem_iff_getElem.mp hq with ⟨k, hk, hqk⟩
      have hk1 : k < keys.length := by
        rw [List.length_zip] at hk
        exact lt_of_lt_of_le hk (min_le_left _ _)
      have hk2 : k < vs.length := by
        rw [List.length_zip] at hk
        exact lt_of_lt_of_le hk (min_le_right _ _)
      have hqeq : q = (keys.getD k Cell.na, vs.getD k none) := by
        rw [← getD_zip keys vs hk1 hk2 Cell.na none]
        rw [List.getD_eq_getElem?_getD, List.getElem?_eq_getElem hk]
        exact hqk.symm
      have hkg : keys.getD k Cell.na = gcell := by
        rw [hqeq] at hqg
        exact hqg
      have := hconst k hk1 hkg
      rw [hqeq] at hqx
      simp only at hqx
      rw [this] at hqx
      exact (Option.some_inj.mp hqx).symm
    · rw [if_neg hqg] at hqx
      cases hqx
  have hgrpne : grp ≠ [] := by
    have hin : v0 ∈ grp := by
      rw [hgrp]
      apply List.mem_filterMap.mpr
      refine ⟨(gcell, some v0), ?_, by rw [if_pos rfl]⟩
      have : (keys.zip vs).getD i (Cell.na, none) = (gcell, some v0) := by
        rw [getD_zip keys vs hi hiv Cell.na none, hkey, hvi]
      rw [← this]
      exact getD_mem _ hzlen _
    intro e
    rw [e] at hin
    cases hin
  simp only
  rw [listMean_const hgrpne hgrpmem, stdOr1_const sqrtK hgrpne hgrpmem]
  simp

/-- `dirnorm` is pointwise: rows with equal inputs get equal outputs. -/
theorem dirnorm_congr_entry (l : List (Option K)) (dir : String) {i j : ℕ}
    (hi : i < l.length) (hj : j < l.length)
    (h : l.getD i none = l.getD j none) :
    (dirnorm l dir).getD i 0 = (dirnorm l dir).getD j 0 := by
  unfold dirnorm
  cases hmed : pdMedian l with
  | none =>
    have hi2 : i < (List.replicate l.length ((1 : K) / 2)).length := by simpa using hi
    have hj2 : j < (List.replicate l.length ((1 : K) / 2)).length := by simpa using hj
    rw [getD_of_all_eq (fun x hx => List.eq_of_mem_replicate hx) hi2,
      getD_of_all_eq (fun x hx => List.eq_of_mem_replicate hx) hj2]
  | some med =>
    simp only
    set s := l.map (fun o => o.getD med) with hs
    set x := if dir = "negative" then s.map (fun v => -v) else s with hx
    have hxi : x.getD i 0 = x.getD j 0 := by
      have hsij : s.getD i 0 = s.getD j 0 := by
        rw [hs, getD_map_lt l _ hi none, getD_map_lt l _ hj none, h]
      rw [hx]
      by_cases hdir : dir = "negative"
      · rw [if_pos hdir]
        have hsi : i < s.length := by rw [hs, List.length_map]; exact hi
        have hsj : j < s.length := by rw [hs, List.length_map]; exact hj
        rw [getD_map_lt s _ hsi 0, getD_map_lt s _ hsj 0, hsij]
      · rw [if_neg hdir]
        exact hsij
    have hxlen : x.length = l.length := by
      rw [hx]
      by_cases hdir : dir = "negative"
      · rw [if_pos hdir, List.length_map, hs, List.length_map]
      · rw [if_neg hdir, hs, List.length_map]
    match hxm : x with
    | [] =>
      have h0 : (0 : ℕ) = l.length := by simpa using hxlen
      exact absurd hi (by omega)
    | hh :: tt =>
      simp only
      by_cases hrange : listMax hh tt = listMin hh tt
      · rw [if_pos hrange]
        have hi2 : i < (List.replicate l.length ((1 : K) / 2)).length := by simpa using hi
        have hj2 : j < (List.replicate l.length ((1 : K) / 2)).length := by simpa using hj
        rw [getD_of_all_eq (fun y hy => List.eq_of_mem_replicate hy) hi2,
          getD_of_all_eq (fun y hy => List.eq_of_mem_replicate hy) hj2]
      · rw [if_neg hrange]
        have hi2 : i < (hh :: tt).length := by
          rw [hxlen]
          exact hi
        have hj2 : j < (hh :: tt).length := by
          rw [hxlen]
          exact hj
        rw [getD_map_lt (hh :: tt) _ hi2 0, getD_map_lt (hh :: tt) _ hj2 0]
        rw [hxi]

/-- C8: with sector neutralization requested and a sector column present, each
requested attribute is replaced before normalization by its within-sector
z-score (the z-column is created, recorded in `mapped`, and survives into the
pre-sort frame); the divisor is the population standard deviation with the
`or 1.0` fallback, so a sector whose values are all identical gets divisor
`1.0`, standardized value exactly `0.0` in every row of that sector, and those
rows tie on the normalized component. -/
theorem claim_C8_sector_neutral (sqrtK : K → K) (df : Table K)
    (prefs0 : List (String × K × String)) (col : String) (w : K) (d : String)
    (gcell : Cell K) (v0 : K)
    (hmem : (col, w, d) ∈ prefs0)
    (hcol : df.hasCol col = true)
    (hsec : df.hasCol "sector" = true)
    (hfresh1 : ∀ p ∈ prefs0, col ≠ zName (p : String × K × String).1)
    (hfresh2 : ∀ p ∈ prefs0, zName col ≠ scoreName (p : String × K × String).1)
    (hfresh3 : zName col ≠ "score_total") (hfresh4 : zName col ≠ "rank")
    (hwf : df.wf)
    (hg : gcell ≠ Cell.na)
    (hconst : ∀ k, k < (df.get "sector").length →
      (df.get "sector").getD k Cell.na = gcell →
      ((df.get col).map cellToNum).getD k none = some v0) :
    let res := rank_with_prefs sqrtK df prefs0 true
    let zv := sectorZ sqrtK (df.get "sector") ((df.get col).map cellToNum)
    (∀ (l : List K) (c : K), l ≠ [] → (∀ x ∈ l, x = c) → stdOr1 sqrtK l = 1) ∧
    (col, zName col) ∈ res.mapped ∧
    (zName col, zv) ∈ res.zcols ∧
    res.preWork.get (zName col) = zv.map optCell ∧
    (∀ i, i < (df.get "sector").length → (df.get "sector").getD i Cell.na = gcell →
      zv.getD i none = some 0) ∧
    (∀ (dir : String) (i j : ℕ), i < (df.get "sector").length →
      j < (df.get "sector").length →
      (df.get "sector").getD i Cell.na = gcell →
      (df.get "sector").getD j Cell.na = gcell →
      (dirnorm zv dir).getD i 0 = (dirnorm zv dir).getD j 0) := by
  intro res zv
  set prefs := normalizeWeights prefs0 with hprefs
  have hfresh1P : ∀ p ∈ prefs, col ≠ zName (p : String × K × String).1 := by
    intro p hp
    rcases normalizeWeights_mem_key hp with ⟨q, hq, he⟩
    rw [he]
    exact hfresh1 q hq
  have hfresh2P : ∀ p ∈ prefs, zName col ≠ scoreName (p : String × K × String).1 := by
    intro p hp
    rcases normalizeWeights_mem_key hp with ⟨q, hq, he⟩
    rw [he]
    exact hfresh2 q hq
  have hlkeys : (df.get "sector").length = df.nRows := Table.get_length_of_wf hwf hsec
  have hlvs : ((df.get col).map cellToNum).length = df.nRows := by
    rw [List.length_map]
    exact Table.get_length_of_wf hwf hcol
  obtain ⟨w', hmemP⟩ : ∃ w', ((col, w', d) : String × K × String) ∈ prefs :=
    ⟨_, List.mem_map.mpr ⟨(col, w, d), hmem, rfl⟩⟩
  obtain ⟨pre, post, hsplit⟩ := List.append_of_mem hmemP
  have hpre_sub : ∀ p ∈ pre, p ∈ prefs := by
    intro p hp
    rw [hsplit]
    exact List.mem_append_left _ hp
  have hpost_sub : ∀ p ∈ post, p ∈ prefs := by
    intro p hp
    rw [hsplit]
    exact List.mem_append_right _ (List.mem_cons_of_mem _ hp)
  set P1 : ZState K → Prop := fun st =>
    st.work.get "sector" = df.get "sector" ∧ st.work.get col = df.get col ∧
    st.work.hasCol col = true ∧ st.work.hasCol "sector" = true with hP1
  have hstep1 : ∀ (st : ZState K) (b : String × K × String), b ∈ prefs →
      P1 st → P1 (zStep sqrtK st b) := by
    intro st b hb hP
    obtain ⟨hPs, hPc, hPh, hPhs⟩ := hP
    unfold zStep
    by_cases hbw : st.work.hasCol b.1
    · rw [if_pos hbw]
      refine ⟨?_, ?_, ?_, ?_⟩
      · rw [Table.get_set_ne _ (sector_ne_zName b.1) _]
        exact hPs
      · rw [Table.get_set_ne _ (hfresh1P b hb) _]
        exact hPc
      · exact Table.hasCol_set_of _ _ _ hPh
      · exact Table.hasCol_set_of _ _ _ hPhs
    · rw [if_neg hbw]
      exact ⟨hPs, hPc, hPh, hPhs⟩
  set P2 : ZState K → Prop := fun st =>
    P1 st ∧ st.work.get (zName col) = zv.map optCell ∧
    (zName col, zv) ∈ st.zcols ∧ (col, zName col) ∈ st.mapped with hP2
  have hstep2 : ∀ (st : ZState K) (b : String × K × String), b ∈ post →
      P2 st → P2 (zStep sqrtK st b) := by
    intro st b hb hP
    obtain ⟨hP1st, hPz, hPzc, hPm⟩ := hP
    obtain ⟨hPs, hPc, hPh, hPhs⟩ := hP1st
    have hbP : b ∈ prefs := hpost_sub b hb
    unfold zStep
    by_cases hbw : st.work.hasCol b.1
    · rw [if_pos hbw]
      refine ⟨⟨?_, ?_, ?_, ?_⟩, ?_, ?_, ?_⟩
      · rw [Table.get_set_ne _ (sector_ne_zName b.1) _]
        exact hPs
      · rw [Table.get_set_ne _ (hfresh1P b hbP) _]
        exact hPc
      · exact Table.hasCol_set_of _ _ _ hPh
      · exact Table.hasCol_set_of _ _ _ hPhs
      · by_cases hbc : b.1 = col
        · rw [hbc, Table.get_set_self, hPs, hPc]
        · rw [Table.get_set_ne _ (fun e => hbc (zName_inj e).symm) _]
          exact hPz
      · exact List.mem_append_left _ hPzc
      · exact List.mem_append_left _ hPm
    · rw [if_neg hbw]
      exact ⟨⟨hPs, hPc, hPh, hPhs⟩, hPz, hPzc, hPm⟩
  have hzst : rwpZst sqrtK df prefs0 true = prefs.foldl (zStep sqrtK) ⟨df, [], []⟩ := by
    unfold rwpZst runZ
    rw [← hprefs, if_pos (by rw [hsec]; rfl)]
  have hP2final : P2 (rwpZst sqrtK df prefs0 true) := by
    rw [hzst, hsplit, List.foldl_append, List.foldl_cons]
    have hpre : P1 (pre.foldl (zStep sqrtK) ⟨df, [], []⟩) := by
      apply foldl_inv P1 (zStep sqrtK) pre _ ⟨rfl, rfl, hcol, hsec⟩
      intro a b hb hP
      exact hstep1 a b (hpre_sub b hb) hP
    have hstepA : P2 (zStep sqrtK (pre.foldl (zStep sqrtK) ⟨df, [], []⟩) (col, w', d)) := by
      obtain ⟨hs1, hs2, hs3, hs4⟩ := hpre
      simp only [zStep]
      rw [if_pos hs3]
      refine ⟨⟨?_, ?_, ?_, ?_⟩, ?_, ?_, ?_⟩
      · rw [Table.get_set_ne _ (sector_ne_zName col) _]
        exact hs1
      · rw [Table.get_set_ne _ (ne_zName_self col) _]
        exact hs2
      · exact Table.hasCol_set_of _ _ _ hs3
      · exact Table.hasCol_set_of _ _ _ hs4
      · rw [Table.get_set_self, hs1, hs2]
      · rw [hs1, hs2]
        exact List.mem_append_right _ (List.mem_singleton.mpr rfl)
      · exact List.mem_append_right _ (List.mem_singleton.mpr rfl)
    exact foldl_inv P2 (zStep sqrtK) post _ hstepA (fun a b hb hP => hstep2 a b hb hP)
  have hR : (rwpCst sqrtK df prefs0 true).work.get (zName col) = zv.map optCell := by
    unfold rwpCst
    rw [← hprefs]
    apply foldl_inv (fun st : CState K => st.work.get (zName col) = zv.map optCell)
      (cStep (rwpZst sqrtK df prefs0 true).mapped) prefs _ hP2final.2.1
    intro a b hb hA
    unfold cStep
    by_cases hbw : a.work.hasCol (mappedSrc (rwpZst sqrtK df prefs0 true).mapped b.1)
    · rw [if_pos hbw]
      rw [Table.get_set_ne _ (hfresh2P b hb) _]
      exact hA
    · rw [if_neg hbw]
      exact hA
  have hPW : res.preWork.get (zName col) = zv.map optCell := by
    rw [show res.preWork = rwpWork4 sqrtK df prefs0 true from rfl]
    unfold rwpWork4
    rw [Table.get_set_ne _ hfresh4 _, Table.get_set_ne _ hfresh3 _]
    exact hR
  have hzero := sectorZ_const_zero sqrtK (df.get "sector") ((df.get col).map cellToNum)
    gcell v0 hg (hlkeys.trans hlvs.symm) hconst
  refine ⟨fun l c hne h => stdOr1_const sqrtK hne h, hP2final.2.2.2, hP2final.2.2.1,
    hPW, hzero, ?_⟩
  intro dir i j hi hj hgi hgj
  have hzlen : zv.length = (df.get "sector").length := by
    rw [show zv.length = min (df.get "sector").length
      ((df.get col).map cellToNum).length from sectorZ_length _ _ _]
    rw [hlkeys, hlvs, min_self]
  have hzi : i < zv.length := by rw [hzlen]; exact hi
  have hzj : j < zv.length := by rw [hzlen]; exact hj
  exact dirnorm_congr_entry zv dir hzi hzj (by rw [hzero i hi hgi, hzero j hj hgj])

/-! ## Concrete witnesses -/

/-- A test frame with a sector column and sector-constant beta values. -/
def dfS : Table ℚ :=
  [("ticker", [Cell.str "A", Cell.str "B", Cell.str "C", Cell.str "D"]),
   ("name", [Cell.str "a", Cell.str "b", Cell.str "c", Cell.str "d"]),
   ("sector", [Cell.str "T", Cell.str "T", Cell.str "U", Cell.str "U"]),
   ("beta", [Cell.num 3, Cell.num 3, Cell.num 5, Cell.num 5])]

/-- An oracle response whose preference object is empty. -/
def emptyPrefsContent : String := "\x7b\"preferences\": \x7b\x7d\x7d"

theorem claim_C3_witness :
    let res := rank_with_prefs (fun q : ℚ => q) dfA [("beta", 1, "positive")] false
    (res.ordered.get "rank"
        = res.perm.map (fun i => Cell.int (Int.ofNat (res.preRanks.getD i 0)))
      ∧ res.ordered.get "score_total"
        = res.perm.map (fun i => Cell.num (res.preScores.getD i 0))) ∧
    List.Perm res.perm (List.range dfA.nRows) ∧
    (∀ a b, a < b → b < res.perm.length →
      res.preRanks.getD (res.perm.getD a 0) 0 < res.preRanks.getD (res.perm.getD b 0) 0
      ∨ (res.preRanks.getD (res.perm.getD a 0) 0 = res.preRanks.getD (res.perm.getD b 0) 0
         ∧ res.preScores.getD (res.perm.getD b 0) 0
             ≤ res.preScores.getD (res.perm.getD a 0) 0)) ∧
    (∀ a b, a < b → b < res.perm.length →
      res.preScores.getD (res.perm.getD a 0) 0 = res.preScores.getD (res.perm.getD b 0) 0 →
      res.perm.getD a 0 < res.perm.getD b 0) :=
  claim_C3_output_order (fun q : ℚ => q) dfA [("beta", 1, "positive")] false
    (by decide) (by decide)

theorem claim_C4_witness :
    (rankMinDesc [(1 : ℚ), 0, 0]).getD 0 0
      = [(1 : ℚ), 0, 0].countP (fun w => decide ([(1 : ℚ), 0, 0].getD 0 0 < w)) + 1 ∧
    (∀ j, j < [(1 : ℚ), 0, 0].length → [(1 : ℚ), 0, 0].getD j 0 = [(1 : ℚ), 0, 0].getD 0 0 →
      (rankMinDesc [(1 : ℚ), 0, 0]).getD j 0 = (rankMinDesc [(1 : ℚ), 0, 0]).getD 0 0) ∧
    (rankMinDesc ([(1 : ℚ), 0, 0] ++ [[(1 : ℚ), 0, 0].getD 0 0])).getD 0 0
      = (rankMinDesc [(1 : ℚ), 0, 0]).getD 0 0 ∧
    (rankMinDesc ([(1 : ℚ), 0, 0] ++ [[(1 : ℚ), 0, 0].getD 0 0])).getD
        [(1 : ℚ), 0, 0].length 0
      = (rankMinDesc [(1 : ℚ), 0, 0]).getD 0 0 :=
  claim_C4_min_rank [(1 : ℚ), 0, 0] 0 (by decide)

theorem claim_C5_witness :
    ((dirnorm [some (1 : ℚ), some 2, some 4] "negative").length
        = ([some (1 : ℚ), some 2, some 4] : List (Option ℚ)).length ∧
      ∀ y ∈ dirnorm [some (1 : ℚ), some 2, some 4] "negative", 0 ≤ y ∧ y ≤ 1) ∧
    ((dirnorm [some (1 : ℚ), some 2, some 4] "positive").getD 0 0
        < (dirnorm [some (1 : ℚ), some 2, some 4] "positive").getD 1 0 ↔
     (dirnorm [some (1 : ℚ), some 2, some 4] "negative").getD 1 0
        < (dirnorm [some (1 : ℚ), some 2, some 4] "negative").getD 0 0) :=
  ⟨(claim_C5_normalize_contract [some (1 : ℚ), some 2, some 4] "negative").1,
   (claim_C5_normalize_contract [some (1 : ℚ), some 2, some 4] "positive").2
     [1, 2, 4] rfl (by decide) 0 1 (by decide) (by decide)⟩

theorem claim_C6_witness :
    dirnorm [some (3 : ℚ), some 3] "negative"
      = List.replicate ([some (3 : ℚ), some 3] : List (Option ℚ)).length (1 / 2) ∧
    dirnorm ([none, none] : List (Option ℚ)) "positive"
      = List.replicate ([none, none] : List (Option ℚ)).length (1 / 2) :=
  ⟨claim_C6_degenerate_neutral [some (3 : ℚ), some 3] "negative"
      (Or.inl ⟨3, by decide⟩),
   claim_C6_degenerate_neutral ([none, none] : List (Option ℚ)) "positive"
      (Or.inr (by decide))⟩

theorem claim_C7_witness :
    let res := rank_with_prefs (fun q : ℚ => q) dfA [("momentum", 1, "positive")] true
    res.compCols = [] ∧
    res.preScores = List.replicate dfA.nRows 0 ∧
    res.preRanks = List.replicate dfA.nRows 1 ∧
    (∀ cl ∈ res.ordered.get "score_total", cl = Cell.num 0) ∧
    (∀ cl ∈ res.ordered.get "rank", cl = Cell.int 1) :=
  claim_C7_absent_attributes (fun q : ℚ => q) dfA [("momentum", 1, "positive")] true
    (by decide) (by decide) (by decide) (by decide)

theorem claim_C8_witness :
    let res := rank_with_prefs (fun q : ℚ => q) dfS [("beta", 1, "negative")] true
    let zv := sectorZ (fun q : ℚ => q) (dfS.get "sector") ((dfS.get "beta").map cellToNum)
    (∀ (l : List ℚ) (c : ℚ), l ≠ [] → (∀ x ∈ l, x = c) → stdOr1 (fun q : ℚ => q) l = 1) ∧
    ("beta", zName "beta") ∈ res.mapped ∧
    (zName "beta", zv) ∈ res.zcols ∧
    res.preWork.get (zName "beta") = zv.map optCell ∧
    (∀ i, i < (dfS.get "sector").length →
      (dfS.get "sector").getD i Cell.na = Cell.str "T" →
      zv.getD i none = some 0) ∧
    (∀ (dir : String) (i j : ℕ), i < (dfS.get "sector").length →
      j < (dfS.get "sector").length →
      (dfS.get "sector").getD i Cell.na = Cell.str "T" →
      (dfS.get "sector").getD j Cell.na = Cell.str "T" →
      (dirnorm zv dir).getD i 0 = (dirnorm zv dir).getD j 0) :=
  claim_C8_sector_neutral (fun q : ℚ => q) dfS [("beta", 1, "negative")] "beta" 1
    "negative" (Cell.str "T") 3 (by decide) (by decide) (by decide) (by decide)
    (by decide) (by decide) (by decide) (by decide) (by decide) (by decide)

theorem claim_C9_witness :
    rank_from_csv (fun q : ℚ => q) dfA emptyPrefsContent 5 false
      = Except.error "LLM returned no usable preferences. Try a clearer request." :=
  claim_C9_empty_spec_aborts (fun q : ℚ => q) dfA emptyPrefsContent 5 false
    (by decide) (by decide) rfl

theorem claim_C2_witness :
    safe_parse_json oracleNoise = some oraclePrefObj ∧
    prefs_from_text dfA oracleNoise = Except.error "json.JSONDecodeError" :=
  ⟨(@claim_C2_amended ℚ _ oracleNoise oraclePrefObj rfl rfl rfl).1,
   (@claim_C2_amended ℚ _ oracleNoise oraclePrefObj rfl rfl rfl).2 dfA⟩

theorem claim_C10_witness :
    let res := rank_with_prefs (fun q : ℚ => q) dfA [("beta", 0, "positive")] false
    res.prefsNorm = [("beta", 0, "positive")] ∧
    listSum (res.prefsNorm.map (fun p => p.2.1)) = 0 ∧
    res.preScores = List.replicate dfA.nRows 0 ∧
    (∀ cl ∈ res.ordered.get "score_total", cl = Cell.num 0) :=
  claim_C10_zero_weights (fun q : ℚ => q) dfA [("beta", 0, "positive")] false
    (by decide) (by decide) (by decide) (by decide)
